import Mathlib

/-!
# Seam carving (`SeamCarving/main.cpp`)

A shallow embedding of the seam-carving routines `detectEdge`, `computeSeam`,
`carveSeam`, `enlarge` and of `main` with its two resizing loops.

A `cv::Mat` is embedded as its header (`rows`, `cols`, `channels`) together
with its rows, each row being the flat sequence of `cols * channels` samples
that `Mat::at<T>(y, j)` indexes.  Samples of type `uchar` and `int` are both
embedded as `Int`; no computation of the program leaves the 32-bit range
(the energies are at most 255 and the indices are bounded by the image size),
so no wrap-around is modelled.

Counted `for` loops are folds over `List.range`, the loop state being passed
explicitly.  A read outside the stored data yields `0` and an assignment
outside the stored data is dropped; where the position of the assignments
matters (`enlarge`), the assigned positions are also collected in a list.
Loop bounds and non-negative indices are natural numbers; the seam entries,
the offsets in `prev` and the coordinates stored in `idx` are integers.
-/

namespace SeamCarving

/-- The matrix type `cv::Mat`: header fields and row-major sample data. -/
structure Mat where
  rows : Nat
  cols : Nat
  chans : Nat
  data : List (List Int)
deriving DecidableEq, Repr

namespace Mat

/-- The sample `m.at<T>(y, j)`; reading outside the stored data yields `0`. -/
def get (m : Mat) (y j : Nat) : Int := (m.data.getD y []).getD j 0

/-- The sample `m.at<T>(y, j)` for an `int` column index `j`. -/
def getI (m : Mat) (y : Nat) (j : Int) : Int :=
  if j < 0 then 0 else m.get y j.toNat

/-- The assignment `m.at<T>(y, j) = v`; the header is unchanged, and an
assignment outside the stored data leaves the matrix as it is. -/
def set (m : Mat) (y j : Nat) (v : Int) : Mat :=
  { m with data := m.data.set y ((m.data.getD y []).set j v) }

/-- The assignment `m.at<T>(y, j) = v` for `int` indices `y` and `j`. -/
def setI (m : Mat) (y j : Int) (v : Int) : Mat :=
  if y < 0 ∨ j < 0 then m else m.set y.toNat j.toNat v

/-- The constructor `cv::Mat(rows, cols, CV_MAKETYPE(depth, chans))`, every
sample holding `v` (`0` stands for the not yet written content). -/
def alloc (rows cols chans : Nat) (v : Int) : Mat :=
  { rows := rows, cols := cols, chans := chans,
    data := List.replicate rows (List.replicate (cols * chans) v) }

/-- The stored data agrees with the header: `rows` rows of `cols * chans`
samples each. -/
def WF (m : Mat) : Prop :=
  m.data.length = m.rows ∧ ∀ r ∈ m.data, r.length = m.cols * m.chans

instance (m : Mat) : Decidable m.WF := by unfold WF; infer_instance

/-- The pixel at row `y`, column `x`: its `chans` samples. -/
def pixel (m : Mat) (y x : Nat) : List Int :=
  (List.range m.chans).map (fun c => m.get y (x * m.chans + c))

/-- Row `y` as the sequence of its `cols` pixels. -/
def pixelRow (m : Mat) (y : Nat) : List (List Int) :=
  (List.range m.cols).map (m.pixel y)

end Mat

/-- The constant `INT_MAX` of a 32-bit `int`. -/
def INT_MAX : Int := 2147483647

/-! ## `computeSeam` -/

/-- An energy map of width `W` and height `H`: one channel of `uchar`
samples. -/
def IsEnergy (e : Mat) (W H : Nat) : Prop :=
  e.WF ∧ e.rows = H ∧ e.cols = W ∧ e.chans = 1 ∧ ∀ r ∈ e.data, ∀ v ∈ r, 0 ≤ v ∧ v ≤ 255

instance (e : Mat) (W H : Nat) : Decidable (IsEnergy e W H) := by
  unfold IsEnergy; infer_instance

/-- The loop `for(int dx=-1; dx<=1; dx++)` of `computeSeam` at cell `(y, x)`:
the state is `(id, minval)`. -/
def pickStep (e : Mat) (width y x : Nat) : Int × Int :=
  ([-1, 0, 1] : List Int).foldl
    (fun (st : Int × Int) (dx : Int) =>
      let xx : Int := (x : Int) + dx
      if xx ≥ 0 ∧ xx < (width : Int) then
        if st.2 > e.getI (y - 1) xx then (dx, e.getI (y - 1) xx) else st
      else st)
    (-1, INT_MAX)

/-- The first loop of `computeSeam`: row 0 of `table` and `prev`. -/
def fillRow0 (e : Mat) (width : Nat) (tp : Mat × Mat) : Mat × Mat :=
  (List.range width).foldl
    (fun (tp : Mat × Mat) x => (tp.1.set 0 x (e.get 0 x), tp.2.set 0 x 0)) tp

/-- The body of the loop over `x` at row `y >= 1` of `computeSeam`. -/
def fillCell (e : Mat) (width y : Nat) (tp : Mat × Mat) (x : Nat) : Mat × Mat :=
  let id := (pickStep e width y x).1
  let prev := tp.2.set y x id
  let table := tp.1.set y x (tp.1.getI (y - 1) ((x : Int) + id))
  (table, prev)

/-- The loops `for(int y=1; y<height; y++) for(int x=0; x<width; x++)`. -/
def fillRows (e : Mat) (width height : Nat) (tp : Mat × Mat) : Mat × Mat :=
  (List.range' 1 (height - 1)).foldl
    (fun (tp : Mat × Mat) y => (List.range width).foldl (fillCell e width y) tp) tp

/-- The scan of the last row of `table`: the state is `(minval, cur_x)`. -/
def pickBottom (table : Mat) (width height : Nat) : Int × Int :=
  (List.range width).foldl
    (fun (st : Int × Int) (x : Nat) =>
      if st.1 > table.get (height - 1) x then (table.get (height - 1) x, (x : Int)) else st)
    (INT_MAX, 0)

/-- The loop `while(cur_y >= 0)`: the first argument is `cur_y + 1`. -/
def backtrack (prev : Mat) : Nat → Int → List Int → List Int
  | 0, _, seam => seam
  | cur_y + 1, cur_x, seam =>
      backtrack prev cur_y (cur_x + prev.getI cur_y cur_x) (seam.set cur_y cur_x)

/-- The call `seam.resize(height)` of a `vector<int>`. -/
def resize (seam : List Int) (height : Nat) : List Int :=
  seam.take height ++ List.replicate (height - seam.length) 0

/-- The tables `(table, prev)` of `computeSeam` after both filling loops. -/
def tables (e : Mat) : Mat × Mat :=
  let width := e.cols
  let height := e.rows
  let table := Mat.alloc height width 1 0
  let prev := Mat.alloc height width 1 0
  fillRows e width height (fillRow0 e width (table, prev))

/-- The function `computeSeam(edge, seam)`: the result is the vector `seam`
after the call. -/
def computeSeam (e : Mat) (seam : List Int) : List Int :=
  let width := e.cols
  let height := e.rows
  let tp := tables e
  let seam := resize seam height
  let cur_x := (pickBottom tp.1 width height).2
  backtrack tp.2 height cur_x seam

/-! ## `detectEdge`

The functions `cv::cvtColor` and `cv::Sobel` belong to OpenCV.  The colour
conversion is a parameter; the gradients are modelled from the description of
the energy estimator in the specification. -/

/-- Modelled from the spec: the border policy of the gradient kernel,
"out-of-bounds samples clamp to the nearest in-bounds row/column"; `n` is the
number of rows or columns. -/
def clampIndex (n : Nat) (i : Int) : Nat :=
  if i < 0 then 0 else if i ≥ (n : Int) then n - 1 else i.toNat

/-- Modelled from the spec: "clamp/saturate the result into the scalar's
representable range (e.g., 0-255 for an 8-bit energy map)", the cast
`cv::saturate_cast<uchar>` of an integer. -/
def saturate (v : Int) : Int :=
  if v < 0 then 0 else if v > 255 then 255 else v

/-- The sample of the single-channel matrix `src` at `(y, x)` under the
border policy `clampIndex`. -/
def sampleAt (src : Mat) (y x : Int) : Int :=
  src.get (clampIndex src.rows y) (clampIndex src.cols x)

/-- Modelled from the spec: `cv::Sobel(src, dst, CV_8U, 1, 0)`, the
"horizontal gradient approximation (discrete derivative via a 3x3 directional
kernel, standard Sobel-style weighting)", stored in 8 bits. -/
def sobelX (src : Mat) : Mat :=
  { rows := src.rows, cols := src.cols, chans := 1,
    data := (List.range src.rows).map (fun (y : Nat) =>
      (List.range src.cols).map (fun (x : Nat) =>
        saturate
          ((sampleAt src ((y : Int) - 1) ((x : Int) + 1)
              - sampleAt src ((y : Int) - 1) ((x : Int) - 1))
            + 2 * (sampleAt src (y : Int) ((x : Int) + 1)
              - sampleAt src (y : Int) ((x : Int) - 1))
            + (sampleAt src ((y : Int) + 1) ((x : Int) + 1)
              - sampleAt src ((y : Int) + 1) ((x : Int) - 1))))) }

/-- Modelled from the spec: `cv::Sobel(src, dst, CV_8U, 0, 1)`, the vertical
gradient approximation with the transposed kernel, stored in 8 bits. -/
def sobelY (src : Mat) : Mat :=
  { rows := src.rows, cols := src.cols, chans := 1,
    data := (List.range src.rows).map (fun (y : Nat) =>
      (List.range src.cols).map (fun (x : Nat) =>
        saturate
          ((sampleAt src ((y : Int) + 1) ((x : Int) - 1)
              - sampleAt src ((y : Int) - 1) ((x : Int) - 1))
            + 2 * (sampleAt src ((y : Int) + 1) (x : Int)
              - sampleAt src ((y : Int) - 1) (x : Int))
            + (sampleAt src ((y : Int) + 1) ((x : Int) + 1)
              - sampleAt src ((y : Int) - 1) ((x : Int) + 1))))) }

/-- The integer nearest to the square root of `n`: the value of
`cvRound(sqrt(n))` for the sums of two squares of 8-bit values that
`detectEdge` forms (the root of an integer is never half-way between two
integers, and these sums are far below the precision of a `double`). -/
def roundSqrt (n : Nat) : Nat :=
  if n > Nat.sqrt n * Nat.sqrt n + Nat.sqrt n then Nat.sqrt n + 1 else Nat.sqrt n

/-- The function `detectEdge(img, edge)`: the result is the matrix `edge`
after the call; `cvtColor` stands for `cv::cvtColor(I, gray, CV_BGR2GRAY)`. -/
def detectEdge (cvtColor : Mat → Mat) (img : Mat) : Mat :=
  let width := img.cols
  let height := img.rows
  let gray := cvtColor img
  let grad_x := sobelX gray
  let grad_y := sobelY gray
  (List.range height).foldl
    (fun (E : Mat) (y : Nat) =>
      (List.range width).foldl
        (fun (E : Mat) (x : Nat) =>
          let gx := grad_x.get y x
          let gy := grad_y.get y x
          E.set y x (saturate (roundSqrt (gx * gx + gy * gy).toNat)))
        E)
    (Mat.alloc height width 1 0)

/-! ## `carveSeam` -/

/-- The loop `for(int c=0; c<dim; c++) dst.at<T>(y, xd*dim+c) = src.at<T>(y, xs*dim+c)`
that copies pixel `xs` of row `y` of `src` to pixel `xd` of row `y` of `dst`. -/
def copyPixel (src : Mat) (dim : Nat) (dst : Mat) (y xd xs : Nat) : Mat :=
  (List.range dim).foldl
    (fun (dst : Mat) c => dst.set y (xd * dim + c) (src.get y (xs * dim + c))) dst

/-- The function `carveSeam<T>(img, seam)`: the result is `img` after the
call (`tmp.convertTo(img, depth)` copies `tmp`, the depth being the same).
The width `width - 1` of `tmp` is the one of the source for `width >= 1`. -/
def carveSeam (img : Mat) (seam : List Int) : Mat :=
  let width := img.cols
  let height := img.rows
  let dim := img.chans
  let tmp := Mat.alloc height (width - 1) dim 0
  (List.range height).foldl
    (fun (tmp : Mat) y =>
      (List.range (width - 1)).foldl
        (fun (tmp : Mat) (x : Nat) =>
          let xx : Nat := if (x : Int) < seam.getD y 0 then x else x + 1
          copyPixel img dim tmp y x xx)
        tmp)
    tmp

/-! ## `enlarge` -/

/-- The loops of `enlarge` over `y` and `x`, the cursor `dx` starting at `0`
in every row.  The argument `write out y xd xs` is what copying pixel `xs` of
row `y` of the source to pixel `xd` of the output does to `out`.  The body
runs only for `width >= 1`, where `width + npix - 1` is not negative. -/
def enlargeWith {σ : Type} (write : σ → Nat → Nat → Nat → σ)
    (width height npix : Nat) (seam : Mat) (out : σ) : σ :=
  (List.range height).foldl
    (fun (out : σ) y =>
      ((List.range width).foldl
        (fun (st : σ × Nat) x =>
          let xx := min (x + st.2) (width + npix - 1)
          let out1 := write st.1 y xx x
          if seam.get y x = 1 then (write out1 y (xx + 1) x, st.2 + 1) else (out1, st.2))
        (out, 0)).1)
    out

/-- The function `enlarge(I, O, seam)` with the global `npix`: the result is
the matrix `O` after the call. -/
def enlarge (img : Mat) (seam : Mat) (npix : Nat) : Mat :=
  enlargeWith (copyPixel img img.chans) img.cols img.rows npix seam
    (Mat.alloc img.rows (img.cols + npix) 3 0)

/-- The pixels `(y, column)` of the output that `enlarge` assigns, in the
order of the assignments. -/
def enlargeWrites (img : Mat) (seam : Mat) (npix : Nat) : List (Nat × Nat) :=
  enlargeWith (fun (log : List (Nat × Nat)) y xd _ => log ++ [(y, xd)])
    img.cols img.rows npix seam []

/-! ## The two branches of `main`

The energy estimator is a parameter `detectEdge` of the loops below; the
function `detectEdge cvtColor` above is one such estimator.  The calls of
`cv::imshow`, `cv::waitKey` and `printf` inside the loops are not modelled.
The loops follow the source as long as every image that is carved has at
least one column, that is for `npix <= width`; what the source does with a
matrix without columns is decided inside OpenCV and is not modelled. -/

/-- One iteration of the loop of the shrink branch; the state is
`(out, seam)`. -/
def shrinkStep (detectEdge : Mat → Mat) (st : Mat × List Int) : Mat × List Int :=
  let edge := detectEdge st.1
  let seam := computeSeam edge st.2
  (carveSeam st.1 seam, seam)

/-- The shrink branch of `main` (`mode == 1`): the matrix `out` after `npix`
iterations. -/
def shrink (detectEdge : Mat → Mat) (img : Mat) (npix : Nat) : Mat :=
  ((List.range npix).foldl (fun st _ => shrinkStep detectEdge st) (img, [])).1

/-- The coordinate-index matrix `idx` of `main` as initialised: cell `(y, x)`
holds `(x, y)`. -/
def indexImage (width height : Nat) : Mat :=
  (List.range height).foldl
    (fun (idx : Mat) (y : Nat) =>
      (List.range width).foldl
        (fun (idx : Mat) (x : Nat) => (idx.set y (x * 2 + 0) (x : Int)).set y (x * 2 + 1) (y : Int))
        idx)
    (Mat.alloc height width 2 0)

/-- One iteration of the tracking loop of the enlarge branch; the state is
`(out, idx, seam)`. -/
def trackStep (detectEdge : Mat → Mat) (st : Mat × Mat × List Int) : Mat × Mat × List Int :=
  let edge := detectEdge st.1
  let seam := computeSeam edge st.2.2
  (carveSeam st.1 seam, carveSeam st.2.1 seam, seam)

/-- The tracking loop of the enlarge branch after `npix` iterations. -/
def track (detectEdge : Mat → Mat) (img : Mat) (npix : Nat) : Mat × Mat × List Int :=
  (List.range npix).foldl (fun st _ => trackStep detectEdge st)
    (img, indexImage img.cols img.rows, [])

/-- The matrix `seams` of `main`: `cv::Mat::ones(img.size(), CV_32SC1)` with
the entry at every coordinate stored in `idx` reset to `0`. -/
def removableMask (img idx : Mat) : Mat :=
  (List.range idx.rows).foldl
    (fun (seams : Mat) y =>
      (List.range idx.cols).foldl
        (fun (seams : Mat) x =>
          let xx := idx.get y (x * 2 + 0)
          let yy := idx.get y (x * 2 + 1)
          seams.setI yy xx 0)
        seams)
    (Mat.alloc img.rows img.cols 1 1)

/-- The enlarge branch of `main`: the matrix `out` after the call of
`enlarge`. -/
def enlargeRun (detectEdge : Mat → Mat) (img : Mat) (npix : Nat) : Mat :=
  let st := track detectEdge img npix
  enlarge img (removableMask img st.2.1) npix

/-- The test `img.empty()`: no rows or no columns. -/
def Mat.empty (m : Mat) : Prop := m.rows = 0 ∨ m.cols = 0

instance (m : Mat) : Decidable m.empty := by unfold Mat.empty; infer_instance

/-- What `main` does: it returns `code` before any processing, or it runs
the branch chosen by `mode` to its end and hands the matrix `out` to
`cv::imshow` and `cv::imwrite` (which are not modelled). -/
inductive Outcome where
  | failed (code : Int)
  | processed (out : Mat)
deriving DecidableEq, Repr

/-- The function `main`: `argc` is the argument count, `mode` and `npix` are
the globals read by `description()` (`npix` taken non-negative), and `img` is
the matrix that `cv::imread` returns, empty when the file holds no image. -/
def main (detectEdge : Mat → Mat) (argc : Nat) (mode : Int) (npix : Nat) (img : Mat) :
    Outcome :=
  if argc ≤ 1 then Outcome.failed (-1)
  else if img.empty then Outcome.failed (-1)
  else if mode = 1 then Outcome.processed (shrink detectEdge img npix)
  else Outcome.processed (enlargeRun detectEdge img npix)

/-! ## Notions used to state the properties -/

/-- The cumulative importance of a path: the sum over the rows `y` of
`energy[y][p[y]]`. -/
def seamEnergy (e : Mat) (p : List Int) : Int :=
  ((List.range e.rows).map (fun y => e.getI y (p.getD y 0))).sum

/-- A top-to-bottom connected path of a `W` x `H` map: one column in
`[0, W)` per row, adjacent rows at most one column apart. -/
def IsPath (W H : Nat) (p : List Int) : Prop :=
  p.length = H ∧ (∀ y, y < H → 0 ≤ p.getD y 0 ∧ p.getD y 0 < W) ∧
  ∀ y, y + 1 < H → |p.getD y 0 - p.getD (y + 1) 0| ≤ 1

instance (W H : Nat) (p : List Int) : Decidable (IsPath W H p) :=
  decidable_of_iff
    (p.length = H ∧ (∀ y, y < H → 0 ≤ p.getD y 0 ∧ p.getD y 0 < W) ∧
      ∀ y, y < H - 1 → |p.getD y 0 - p.getD (y + 1) 0| ≤ 1)
    (by
      unfold IsPath
      constructor
      · rintro ⟨h1, h2, h3⟩
        exact ⟨h1, h2, fun y hy => h3 y (by omega)⟩
      · rintro ⟨h1, h2, h3⟩
        exact ⟨h1, h2, fun y hy => h3 y (by omega)⟩)

/-- The number of columns `x < n` of row `y` of the mask whose flag is `1`. -/
def flagCount (seam : Mat) (y n : Nat) : Nat :=
  (List.range n).countP (fun x => seam.get y x = 1)

/-- The first `n` pixels of row `y` of `img`, read left to right, every pixel
whose flag is `1` immediately followed by one copy of itself. -/
def dupRow (img seam : Mat) (y n : Nat) : List (List Int) :=
  (List.range n).flatMap
    (fun x => if seam.get y x = 1 then [img.pixel y x, img.pixel y x] else [img.pixel y x])

/-- Row `y` of the coordinate-index image of a `W` columns wide image: the
coordinates `(0, y), ..., (W - 1, y)`. -/
def coordRow (W y : Nat) : List (List Int) :=
  (List.range W).map (fun (x : Nat) => [(x : Int), (y : Int)])

/-- The pixel of `img` at the coordinate `(xx, yy)` that the pixel `p` of a
coordinate-index image stores (`xx` in channel 0, `yy` in channel 1). -/
def lookup (img : Mat) (p : List Int) : List Int :=
  img.pixel (p.getD 1 0).toNat (p.getD 0 0).toNat

/-- An energy estimator that, on every well-formed image of at least one
column, returns an energy map of the image's dimensions. -/
def IsEstimator (detectEdge : Mat → Mat) : Prop :=
  ∀ m : Mat, m.WF → 1 ≤ m.cols → IsEnergy (detectEdge m) m.cols m.rows

/-- The energy estimator that returns the zero map of the image's size (the
gradient magnitude of a uniform image). -/
def flatEnergy (m : Mat) : Mat := Mat.alloc m.rows m.cols 1 0

/-- The row-0 column reached from cell `(y, x)` by following the offsets of
`prev` upward, as the backtracking loop does. -/
def climb (prev : Mat) : Nat → Int → Int
  | 0, x => x
  | y + 1, x => climb prev y (x + prev.getI (y + 1) x)

/-- An energy map whose entries are all equal. -/
def IsFlat (e : Mat) : Prop :=
  ∀ y, y < e.rows → ∀ x, x < e.cols → e.get y x = e.get 0 0

instance (e : Mat) : Decidable (IsFlat e) := by unfold IsFlat; infer_instance

/-- An image all of whose pixels are `p`. -/
def Uniform (m : Mat) (p : List Int) : Prop :=
  ∀ y, y < m.rows → ∀ x, x < m.cols → m.pixel y x = p

instance (m : Mat) (p : List Int) : Decidable (Uniform m p) := by
  unfold Uniform; infer_instance

/-! ## Invariants of the loops -/

/-- The content of `prev` at `(y, x)` once `computeSeam` has filled it. -/
def dirOf (e : Mat) (y x : Nat) : Int :=
  if y = 0 then 0 else (pickStep e e.cols y x).1

/-- The content of `table` at `(y, x)` once `computeSeam` has filled it. -/
def costOf (e : Mat) : Nat → Nat → Int
  | 0, x => e.get 0 x
  | y + 1, x => costOf e y ((x : Int) + dirOf e (y + 1) x).toNat

/-- The state of `(table, prev)` while `computeSeam` fills them: rows below
`y` are complete and row `y` is complete up to column `n`. -/
def Filled (e : Mat) (tp : Mat × Mat) (y n : Nat) : Prop :=
  tp.1.WF ∧ tp.2.WF ∧
  (tp.1.rows = e.rows ∧ tp.1.cols = e.cols ∧ tp.1.chans = 1) ∧
  (tp.2.rows = e.rows ∧ tp.2.cols = e.cols ∧ tp.2.chans = 1) ∧
  ∀ y1 x, x < e.cols → (y1 < y ∨ (y1 = y ∧ x < n)) →
    tp.2.get y1 x = dirOf e y1 x ∧ tp.1.get y1 x = costOf e y1 x

/-- The state `(out, idx, seam)` of the tracking loop after `i` iterations on
an image `img` of width `W` and height `H`: both matrices are `W - i` wide,
each row of `idx` is a subsequence of the original coordinates of that row,
and each row of `out` holds the pixels of `img` at the coordinates that the
row of `idx` stores. -/
def Tracked (img : Mat) (W H i : Nat) (st : Mat × Mat × List Int) : Prop :=
  (st.1.WF ∧ st.1.rows = H ∧ st.1.cols = W - i ∧ st.1.chans = img.chans) ∧
  (st.2.1.WF ∧ st.2.1.rows = H ∧ st.2.1.cols = W - i ∧ st.2.1.chans = 2) ∧
  ∀ y, y < H →
    (st.2.1.pixelRow y).Sublist (coordRow W y) ∧
    st.1.pixelRow y = (st.2.1.pixelRow y).map (lookup img)

/-- The coordinate `(x, y)` is stored in `idx` at a cell that the loops of
`removableMask` have visited when they stand at row `m`, column `n`. -/
def Marked (idx : Mat) (m n : Nat) (y x : Nat) : Prop :=
  ∃ y1 x1, (y1 < m ∨ (y1 = m ∧ x1 < n)) ∧ x1 < idx.cols ∧
    idx.get y1 (x1 * 2 + 0) = (x : Int) ∧ idx.get y1 (x1 * 2 + 1) = (y : Int)

/-! ## Sample data -/

/-- A 3 x 3 energy map. -/
def sampleEnergy : Mat := ⟨3, 3, 1, [[5, 1, 7], [9, 0, 2], [4, 4, 4]]⟩

/-- A 2 x 2 energy map whose cheapest path is the diagonal. -/
def diagEnergy : Mat := ⟨2, 2, 1, [[0, 1], [9, 0]]⟩

/-- A 3 x 2 image of two channels. -/
def sampleImage : Mat := ⟨2, 3, 2, [[10, 11, 20, 21, 30, 31], [40, 41, 50, 51, 60, 61]]⟩

/-- A 2 x 1 image of three channels. -/
def twoPixels : Mat := ⟨1, 2, 3, [[1, 2, 3, 4, 5, 6]]⟩

/-- A mask for `twoPixels` with one flag, on column 1. -/
def oneFlag : Mat := ⟨1, 2, 1, [[0, 1]]⟩

/-- A mask for `twoPixels` with two flags. -/
def twoFlags : Mat := ⟨1, 2, 1, [[1, 1]]⟩

/-- The map `diagEnergy` with another bottom row. -/
def diagEnergy2 : Mat := ⟨2, 2, 1, [[0, 1], [3, 200]]⟩

/-- A 3 x 3 image of three channels, every sample being `7`. -/
def uniformImage : Mat :=
  ⟨3, 3, 3, [[7, 7, 7, 7, 7, 7, 7, 7, 7], [7, 7, 7, 7, 7, 7, 7, 7, 7],
    [7, 7, 7, 7, 7, 7, 7, 7, 7]]⟩

/-- A 2 x 2 energy map with all entries equal to `5`. -/
def flatMap5 : Mat := ⟨2, 2, 1, [[5, 5], [5, 5]]⟩

/-- The grey image of the stripe scenario: 4 columns, 3 rows, column 2
holding `s` and the other columns `b`. -/
def stripe (b s : Int) : Mat :=
  ⟨3, 4, 1, [[b, b, s, b], [b, b, s, b], [b, b, s, b]]⟩

/-- An image with no columns, as `cv::imread` returns for an unreadable file. -/
def emptyImage : Mat := ⟨0, 0, 3, []⟩

theorem foldl_range_inv {σ : Type} (P : Nat → σ → Prop) (f : σ → Nat → σ) (n : Nat) (s0 : σ)
    (h0 : P 0 s0) (hstep : ∀ i s, i < n → P i s → P (i + 1) (f s i)) :
    P n ((List.range n).foldl f s0) := by
  induction n with
  | zero => simpa using h0
  | succ k ih =>
    rw [List.range_succ, List.foldl_append]
    simp only [List.foldl_cons, List.foldl_nil]
    exact hstep k _ (Nat.lt_succ_self k)
      (ih (fun i s hi hP => hstep i s (Nat.lt_succ_of_lt hi) hP))

namespace Mat

@[simp] theorem set_rows (m : Mat) (y j : Nat) (v : Int) : (m.set y j v).rows = m.rows := rfl
@[simp] theorem set_cols (m : Mat) (y j : Nat) (v : Int) : (m.set y j v).cols = m.cols := rfl
@[simp] theorem set_chans (m : Mat) (y j : Nat) (v : Int) : (m.set y j v).chans = m.chans := rfl

theorem set_of_le (m : Mat) {y : Nat} (j : Nat) (v : Int) (hy : m.data.length ≤ y) :
    m.set y j v = m := by
  simp [set, List.set_eq_of_length_le hy]

theorem set_WF {m : Mat} (h : m.WF) (y j : Nat) (v : Int) : (m.set y j v).WF := by
  by_cases hy : y < m.data.length
  · obtain ⟨h1, h2⟩ := h
    refine ⟨by simp [set, h1], ?_⟩
    intro r hr
    simp only [set] at hr
    rcases List.mem_or_eq_of_mem_set hr with h | h
    · exact h2 r h
    · subst h
      simp only [List.length_set, set_cols, set_chans]
      have : m.data.getD y [] ∈ m.data := by
        rw [List.getD_eq_getElem _ _ hy]; exact List.getElem_mem _
      exact h2 _ this
  · rw [set_of_le m j v (by omega)]; exact h

theorem rowLen_of_WF {m : Mat} (h : m.WF) {y : Nat} (hy : y < m.rows) :
    (m.data.getD y []).length = m.cols * m.chans := by
  have hy2 : y < m.data.length := by rw [h.1]; exact hy
  apply h.2
  rw [List.getD_eq_getElem _ _ hy2]; exact List.getElem_mem _

theorem get_of_rows_le {m : Mat} (h : m.WF) {y : Nat} (j : Nat) (hy : m.rows ≤ y) :
    m.get y j = 0 := by
  have : m.data.length ≤ y := by rw [h.1]; exact hy
  unfold get
  rw [List.getD_eq_default _ _ this]
  simp

theorem get_of_width_le {m : Mat} (h : m.WF) (y : Nat) {j : Nat} (hj : m.cols * m.chans ≤ j) :
    m.get y j = 0 := by
  by_cases hy : y < m.rows
  · have := rowLen_of_WF h hy
    unfold get
    rw [List.getD_eq_default _ _ (by omega)]
  · exact get_of_rows_le h j (by omega)

theorem get_set_same {m : Mat} (h : m.WF) {y j : Nat} (v : Int)
    (hy : y < m.rows) (hj : j < m.cols * m.chans) : (m.set y j v).get y j = v := by
  have hy2 : y < m.data.length := by rw [h.1]; exact hy
  have hl := rowLen_of_WF h hy
  rw [List.getD_eq_getElem _ _ hy2] at hl
  simp [get, set, List.getD_eq_getElem?_getD, List.getElem?_set, hy2, hl, hj]

theorem get_set_ne (m : Mat) {y j y1 j1 : Nat} (v : Int) (hne : y1 ≠ y ∨ j1 ≠ j) :
    (m.set y j v).get y1 j1 = m.get y1 j1 := by
  by_cases hy : y1 = y
  · subst hy
    have hj : j1 ≠ j := by
      rcases hne with h | h
      · exact absurd rfl h
      · exact h
    by_cases hl : y1 < m.data.length
    · simp [get, set, List.getD_eq_getElem?_getD, List.getElem?_set, hl, Ne.symm hj]
    · rw [set_of_le m j v (by omega)]
  · simp [get, set, List.getD_eq_getElem?_getD, List.getElem?_set, Ne.symm hy]

theorem alloc_WF (rows cols chans : Nat) (v : Int) : (alloc rows cols chans v).WF := by
  refine ⟨by simp [alloc], ?_⟩
  intro r hr
  simp only [alloc] at hr
  rw [List.eq_of_mem_replicate hr]
  simp [alloc]

theorem get_alloc (rows cols chans : Nat) (y j : Nat) : (alloc rows cols chans 0).get y j = 0 := by
  by_cases hy : y < rows
  · by_cases hj : j < cols * chans
    · simp [get, alloc, List.getD_eq_getElem?_getD, List.getElem?_replicate, hy, hj]
    · exact get_of_width_le (alloc_WF _ _ _ _) y (by simpa [alloc] using hj)
  · exact get_of_rows_le (alloc_WF _ _ _ _) j (by simpa [alloc] using hy)

theorem getI_of_nonneg (m : Mat) (y : Nat) {j : Int} (hj : 0 ≤ j) :
    m.getI y j = m.get y j.toNat := by
  simp [getI, not_lt.mpr hj]

theorem getI_natCast (m : Mat) (y j : Nat) : m.getI y (j : Int) = m.get y j := by
  rw [getI_of_nonneg m y (Int.natCast_nonneg j)]; simp

end Mat

/-! ## The tables of `computeSeam` -/

theorem IsEnergy.get_bounds {e : Mat} {W H : Nat} (hE : IsEnergy e W H) (y j : Nat) :
    0 ≤ e.get y j ∧ e.get y j ≤ 255 := by
  obtain ⟨_, _, _, _, hv⟩ := hE
  unfold Mat.get
  by_cases hy : y < e.data.length
  · by_cases hj : j < (e.data.getD y []).length
    · have h1 : e.data.getD y [] ∈ e.data := by
        rw [List.getD_eq_getElem _ _ hy]; exact List.getElem_mem _
      have h2 : (e.data.getD y []).getD j 0 ∈ e.data.getD y [] := by
        rw [List.getD_eq_getElem _ _ hj]; exact List.getElem_mem _
      exact hv _ h1 _ h2
    · rw [List.getD_eq_default _ _ (by omega)]; omega
  · rw [List.getD_eq_default e.data [] (by omega)]; simp

theorem IsEnergy.getI_bounds {e : Mat} {W H : Nat} (hE : IsEnergy e W H) (y : Nat) (j : Int) :
    0 ≤ e.getI y j ∧ e.getI y j ≤ 255 := by
  unfold Mat.getI
  split
  · omega
  · exact hE.get_bounds y _

/-- The offset chosen by the loop over `dx`: it is one of `-1, 0, +1`, it
stays inside the row, and it is the first offset, in the order `-1, 0, +1`,
of least energy in the row above. -/
theorem pickStep_spec (e : Mat) {width : Nat} (y x : Nat) (hx : x < width)
    (hb : ∀ j : Int, e.getI (y - 1) j ≤ 255) :
    ((pickStep e width y x).1 = -1 ∨ (pickStep e width y x).1 = 0 ∨ (pickStep e width y x).1 = 1) ∧
    0 ≤ (x : Int) + (pickStep e width y x).1 ∧
    (x : Int) + (pickStep e width y x).1 < width ∧
    (∀ d : Int, (d = -1 ∨ d = 0 ∨ d = 1) → 0 ≤ (x : Int) + d → (x : Int) + d < width →
      e.getI (y - 1) ((x : Int) + (pickStep e width y x).1) ≤ e.getI (y - 1) ((x : Int) + d) ∧
      (d < (pickStep e width y x).1 →
        e.getI (y - 1) ((x : Int) + (pickStep e width y x).1) < e.getI (y - 1) ((x : Int) + d))) := by
  have ha := hb ((x : Int) + -1)
  have hc := hb ((x : Int) + 0)
  have hd := hb ((x : Int) + 1)
  generalize hA : e.getI (y - 1) ((x : Int) + -1) = a at ha
  generalize hB : e.getI (y - 1) ((x : Int) + 0) = b at hc
  generalize hC : e.getI (y - 1) ((x : Int) + 1) = c at hd
  have ha2 : (2147483647 : Int) > a := by omega
  have hb2 : (2147483647 : Int) > b := by omega
  have hc2 : (2147483647 : Int) > c := by omega
  have h0 : (x : Int) + 0 ≥ 0 ∧ (x : Int) + 0 < width := by omega
  by_cases h1 : (x : Int) + -1 ≥ 0 ∧ (x : Int) + -1 < width <;>
  by_cases h3 : (x : Int) + 1 ≥ 0 ∧ (x : Int) + 1 < width <;>
  by_cases hab : a > b <;> by_cases hac : a > c <;> by_cases hbc : b > c <;>
  simp only [pickStep, List.foldl_cons, List.foldl_nil, INT_MAX, hA, hB, hC, h0, h1, h3,
    ha2, hb2, hc2, hab, hac, hbc, and_self, if_true, if_false] <;>
  (refine ⟨by decide, trivial, trivial, ?_⟩
   intro d hd hd0 hdw
   rcases hd with rfl | rfl | rfl <;> simp only [hA, hB, hC] <;> omega)

theorem dirOf_succ (e : Mat) (y x : Nat) :
    dirOf e (y + 1) x = (pickStep e e.cols (y + 1) x).1 := by
  simp [dirOf]

theorem Filled.next_row {e : Mat} {tp : Mat × Mat} {y : Nat} (h : Filled e tp y e.cols) :
    Filled e tp (y + 1) 0 := by
  obtain ⟨h1, h2, h3, h4, h5⟩ := h
  refine ⟨h1, h2, h3, h4, ?_⟩
  intro y1 x hx hy
  apply h5 y1 x hx
  rcases hy with hy | ⟨_, hy⟩
  · by_cases h : y1 = y
    · exact Or.inr ⟨h, hx⟩
    · exact Or.inl (by omega)
  · omega

theorem fillRow0_filled (e : Mat) (hH : 1 ≤ e.rows) :
    Filled e (fillRow0 e e.cols
      (Mat.alloc e.rows e.cols 1 0, Mat.alloc e.rows e.cols 1 0)) 0 e.cols := by
  unfold fillRow0
  apply foldl_range_inv (fun i tp => Filled e tp 0 i)
  · refine ⟨Mat.alloc_WF _ _ _ _, Mat.alloc_WF _ _ _ _, ⟨rfl, rfl, rfl⟩, ⟨rfl, rfl, rfl⟩, ?_⟩
    intro y1 x _ hy
    omega
  · intro i tp hi h
    obtain ⟨h1, h2, h3, h4, h5⟩ := h
    refine ⟨Mat.set_WF h1 _ _ _, Mat.set_WF h2 _ _ _, h3, h4, ?_⟩
    intro y1 x hx hy
    have hy0 : y1 = 0 := by omega
    subst hy0
    by_cases hxi : x = i
    · subst hxi
      rw [Mat.get_set_same h2 _ (by omega) (by rw [h4.2.1, h4.2.2]; omega),
        Mat.get_set_same h1 _ (by omega) (by rw [h3.2.1, h3.2.2]; omega)]
      simp [dirOf, costOf]
    · rw [Mat.get_set_ne _ _ (Or.inr hxi), Mat.get_set_ne _ _ (Or.inr hxi)]
      exact h5 0 x hx (Or.inr ⟨rfl, by omega⟩)

theorem fillCell_filled {e : Mat} {tp : Mat × Mat} {y i : Nat} (h : Filled e tp (y + 1) i)
    (hy : y + 1 < e.rows) (hi : i < e.cols) (hb : ∀ j : Int, e.getI y j ≤ 255) :
    Filled e (fillCell e e.cols (y + 1) tp i) (y + 1) (i + 1) := by
  obtain ⟨h1, h2, h3, h4, h5⟩ := h
  obtain ⟨_, hp0, hpw, _⟩ := pickStep_spec e (y + 1) i hi hb
  refine ⟨Mat.set_WF h1 _ _ _, Mat.set_WF h2 _ _ _, h3, h4, ?_⟩
  intro y1 x hx hy1
  simp only [fillCell]
  by_cases hc : y1 = y + 1 ∧ x = i
  · obtain ⟨rfl, rfl⟩ := hc
    rw [Mat.get_set_same h2 _ (by omega) (by rw [h4.2.1, h4.2.2]; omega),
      Mat.get_set_same h1 _ (by omega) (by rw [h3.2.1, h3.2.2]; omega)]
    refine ⟨(dirOf_succ e y x).symm, ?_⟩
    simp only [Nat.add_sub_cancel] at hp0 hpw ⊢
    rw [Mat.getI_of_nonneg _ _ hp0]
    have hlt : ((x : Int) + (pickStep e e.cols (y + 1) x).1).toNat < e.cols := by omega
    rw [(h5 y _ hlt (Or.inl (by omega))).2]
    simp [costOf, dirOf]
  · have hne : y1 ≠ y + 1 ∨ x ≠ i := by
      by_cases h : y1 = y + 1
      · exact Or.inr (fun hx => hc ⟨h, hx⟩)
      · exact Or.inl h
    rw [Mat.get_set_ne _ _ hne, Mat.get_set_ne _ _ hne]
    apply h5 y1 x hx
    rcases hy1 with hy1 | ⟨hy1, hx1⟩
    · exact Or.inl hy1
    · exact Or.inr ⟨hy1, by omega⟩

theorem tables_filled {e : Mat} {W H : Nat} (hE : IsEnergy e W H) (hH : 1 ≤ H) :
    Filled e (tables e) e.rows 0 := by
  have hrows : e.rows = H := hE.2.1
  have hb : ∀ (y : Nat) (j : Int), e.getI y j ≤ 255 := fun y j => (hE.getI_bounds y j).2
  unfold tables fillRows
  simp only
  rw [List.range'_eq_map_range, List.foldl_map]
  have key := foldl_range_inv (fun i tp => Filled e tp (i + 1) 0)
    (fun (tp : Mat × Mat) (y : Nat) => (List.range e.cols).foldl (fillCell e e.cols (1 + y)) tp)
    (e.rows - 1)
    (fillRow0 e e.cols (Mat.alloc e.rows e.cols 1 0, Mat.alloc e.rows e.cols 1 0))
    (fillRow0_filled e (by omega)).next_row
    (by
      intro i tp hi h
      apply Filled.next_row
      show Filled e ((List.range e.cols).foldl (fillCell e e.cols (1 + i)) tp) (i + 1) e.cols
      rw [show 1 + i = i + 1 by omega]
      apply foldl_range_inv (fun n tp => Filled e tp (i + 1) n)
      · exact h
      · intro n tp2 hn h2
        exact fillCell_filled h2 (by omega) hn (hb i))
  simp only [show e.rows - 1 + 1 = e.rows by omega] at key
  exact key

/-- Every entry of `prev` is an offset in `-1, 0, +1` that stays in the row. -/
theorem dirOf_valid {e : Mat} {W H : Nat} (hE : IsEnergy e W H) (y x : Nat) (hx : x < W) :
    (dirOf e y x = -1 ∨ dirOf e y x = 0 ∨ dirOf e y x = 1) ∧
    0 ≤ (x : Int) + dirOf e y x ∧ (x : Int) + dirOf e y x < W := by
  have hcols : e.cols = W := hE.2.2.1
  cases y with
  | zero => simp [dirOf]; omega
  | succ y =>
    rw [dirOf_succ]
    have hx2 : x < e.cols := by omega
    obtain ⟨h1, h2, h3, _⟩ := pickStep_spec e (y + 1) x hx2 (fun j => (hE.getI_bounds _ j).2)
    exact ⟨h1, h2, by omega⟩

/-! ## The seam of `computeSeam` -/

theorem resize_length (seam : List Int) (height : Nat) : (resize seam height).length = height := by
  simp [resize]; omega

theorem pickBottom_range (table : Mat) (width height : Nat) (hW : 1 ≤ width) :
    0 ≤ (pickBottom table width height).2 ∧ (pickBottom table width height).2 < width := by
  have key := foldl_range_inv
    (fun i (st : Int × Int) => 0 ≤ st.2 ∧ (st.2 < i ∨ st.2 = 0))
    (fun (st : Int × Int) (x : Nat) =>
      if st.1 > table.get (height - 1) x then (table.get (height - 1) x, (x : Int)) else st)
    width (INT_MAX, 0) (by simp)
    (by
      intro i st _ h
      simp only
      split
      · simp only; omega
      · push_cast; omega)
  simp only at key
  unfold pickBottom
  omega

theorem backtrack_length (prev : Mat) (n : Nat) (cur_x : Int) (seam : List Int) :
    (backtrack prev n cur_x seam).length = seam.length := by
  induction n generalizing cur_x seam with
  | zero => rfl
  | succ n ih => simp [backtrack, ih]

theorem backtrack_above (prev : Mat) (n : Nat) (cur_x : Int) (seam : List Int) (y : Nat)
    (hy : n ≤ y) : (backtrack prev n cur_x seam).getD y 0 = seam.getD y 0 := by
  induction n generalizing cur_x seam with
  | zero => rfl
  | succ n ih =>
    simp only [backtrack]
    rw [ih _ _ (by omega)]
    have hne : n ≠ y := by omega
    simp [List.getD_eq_getElem?_getD, List.getElem?_set, hne]

theorem backtrack_top (prev : Mat) (n : Nat) (cur_x : Int) (seam : List Int)
    (hn : n < seam.length) : (backtrack prev (n + 1) cur_x seam).getD n 0 = cur_x := by
  simp only [backtrack]
  rw [backtrack_above _ _ _ _ _ (Nat.le_refl n)]
  simp [List.getD_eq_getElem?_getD, List.getElem?_set, hn]

theorem backtrack_step (prev : Mat) (n : Nat) (cur_x : Int) (seam : List Int) (y : Nat)
    (hy : y + 1 < n) (hn : n ≤ seam.length) :
    (backtrack prev n cur_x seam).getD y 0 =
      (backtrack prev n cur_x seam).getD (y + 1) 0 +
        prev.getI (y + 1) ((backtrack prev n cur_x seam).getD (y + 1) 0) := by
  induction n generalizing cur_x seam with
  | zero => omega
  | succ n ih =>
    by_cases h : y + 1 < n
    · simp only [backtrack]
      exact ih _ _ h (by simp; omega)
    · have hn1 : n = y + 1 := by omega
      subst hn1
      rw [backtrack_top _ (y + 1) _ _ (by omega)]
      show (backtrack prev (y + 1) (cur_x + prev.getI (y + 1) cur_x)
        (seam.set (y + 1) cur_x)).getD y 0 = _
      rw [backtrack_top _ y _ _ (by simp; omega)]

theorem computeSeam_length (e : Mat) (seam0 : List Int) :
    (computeSeam e seam0).length = e.rows := by
  simp [computeSeam, backtrack_length, resize_length]

theorem computeSeam_bottom (e : Mat) (seam0 : List Int) (hH : 1 ≤ e.rows) :
    (computeSeam e seam0).getD (e.rows - 1) 0 = (pickBottom (tables e).1 e.cols e.rows).2 := by
  unfold computeSeam
  simp only
  obtain ⟨n, hn⟩ : ∃ n, e.rows = n + 1 := ⟨e.rows - 1, by omega⟩
  rw [hn, Nat.add_sub_cancel]
  exact backtrack_top _ _ _ _ (by rw [resize_length]; omega)

theorem computeSeam_step (e : Mat) (seam0 : List Int) (y : Nat) (hy : y + 1 < e.rows) :
    (computeSeam e seam0).getD y 0 =
      (computeSeam e seam0).getD (y + 1) 0 +
        (tables e).2.getI (y + 1) ((computeSeam e seam0).getD (y + 1) 0) := by
  unfold computeSeam
  simp only
  exact backtrack_step _ _ _ _ _ hy (by rw [resize_length])

theorem prev_getI {e : Mat} {W H : Nat} (hE : IsEnergy e W H) (hH : 1 ≤ H) (y : Nat) (c : Int)
    (hy : y < H) (hc0 : 0 ≤ c) (hcW : c < W) :
    (tables e).2.getI y c = dirOf e y c.toNat := by
  obtain ⟨_, _, _, _, h5⟩ := tables_filled hE hH
  rw [Mat.getI_of_nonneg _ _ hc0]
  have hcols : e.cols = W := hE.2.2.1
  have hrows : e.rows = H := hE.2.1
  exact (h5 y c.toNat (by omega) (Or.inl (by omega))).1

theorem computeSeam_range {e : Mat} {W H : Nat} (hE : IsEnergy e W H) (hW : 1 ≤ W) (hH : 1 ≤ H)
    (seam0 : List Int) (y : Nat) (hy : y < H) :
    0 ≤ (computeSeam e seam0).getD y 0 ∧ (computeSeam e seam0).getD y 0 < W := by
  have hcols : e.cols = W := hE.2.2.1
  have hrows : e.rows = H := hE.2.1
  have main : ∀ k, k < H → 0 ≤ (computeSeam e seam0).getD (H - 1 - k) 0 ∧
      (computeSeam e seam0).getD (H - 1 - k) 0 < W := by
    intro k
    induction k with
    | zero =>
      intro _
      rw [Nat.sub_zero, ← hrows, computeSeam_bottom e seam0 (by omega), hcols]
      exact pickBottom_range _ _ _ hW
    | succ k ih =>
      intro hk
      have ih2 := ih (by omega)
      have hidx : H - 1 - k = (H - 1 - (k + 1)) + 1 := by omega
      rw [hidx] at ih2
      rw [computeSeam_step e seam0 _ (by omega), prev_getI hE hH _ _ (by omega) ih2.1 ih2.2]
      have hv := dirOf_valid hE (H - 1 - (k + 1) + 1)
        ((computeSeam e seam0).getD (H - 1 - (k + 1) + 1) 0).toNat (by omega)
      rw [Int.toNat_of_nonneg ih2.1] at hv
      exact ⟨hv.2.1, hv.2.2⟩
  have := main (H - 1 - y) (by omega)
  rwa [show H - 1 - (H - 1 - y) = y by omega] at this

/-- Each upward step of the seam follows the offset stored in `prev`. -/
theorem computeSeam_step_dir {e : Mat} {W H : Nat} (hE : IsEnergy e W H) (hW : 1 ≤ W)
    (hH : 1 ≤ H) (seam0 : List Int) (y : Nat) (hy : y + 1 < H) :
    (computeSeam e seam0).getD y 0 =
      (computeSeam e seam0).getD (y + 1) 0 +
        dirOf e (y + 1) ((computeSeam e seam0).getD (y + 1) 0).toNat := by
  have hrows : e.rows = H := hE.2.1
  have hr := computeSeam_range hE hW hH seam0 (y + 1) hy
  rw [computeSeam_step e seam0 y (by omega), prev_getI hE hH _ _ hy hr.1 hr.2]

/-- C1. Seam validity: on an energy map of width `W >= 1` and height `H >= 1`
with entries in `0..255`, `computeSeam` returns a seam of length `H` whose
entries lie in `[0, W)` and whose adjacent entries differ by at most one; for
`W = 1` the seam is column `0` in every row. -/
theorem computeSeam_valid (e : Mat) (W H : Nat) (seam0 : List Int)
    (hW : 1 ≤ W) (hH : 1 ≤ H) (hE : IsEnergy e W H) :
    (computeSeam e seam0).length = H ∧
    (∀ y, y < H →
      0 ≤ (computeSeam e seam0).getD y 0 ∧ (computeSeam e seam0).getD y 0 < W) ∧
    (∀ y, y + 1 < H →
      |(computeSeam e seam0).getD y 0 - (computeSeam e seam0).getD (y + 1) 0| ≤ 1) ∧
    (W = 1 → ∀ y, y < H → (computeSeam e seam0).getD y 0 = 0) := by
  have hrows : e.rows = H := hE.2.1
  refine ⟨by rw [computeSeam_length, hrows], fun y hy => computeSeam_range hE hW hH seam0 y hy,
    ?_, ?_⟩
  · intro y hy
    have hr := computeSeam_range hE hW hH seam0 (y + 1) hy
    have hv := dirOf_valid hE (y + 1) ((computeSeam e seam0).getD (y + 1) 0).toNat (by omega)
    rw [computeSeam_step_dir hE hW hH seam0 y hy, abs_le]
    omega
  · intro h1 y hy
    have := computeSeam_range hE hW hH seam0 y hy
    omega

/-- An instance of C1: the 3 x 3 map `sampleEnergy`. -/
theorem computeSeam_valid_witness :
    IsEnergy sampleEnergy 3 3 ∧
    ((computeSeam sampleEnergy []).length = 3 ∧
    (∀ y, y < 3 →
      0 ≤ (computeSeam sampleEnergy []).getD y 0 ∧
      (computeSeam sampleEnergy []).getD y 0 < (3 : Nat)) ∧
    (∀ y, y + 1 < 3 →
      |(computeSeam sampleEnergy []).getD y 0 - (computeSeam sampleEnergy []).getD (y + 1) 0| ≤ 1) ∧
    ((3 : Nat) = 1 → ∀ y, y < 3 → (computeSeam sampleEnergy []).getD y 0 = 0)) :=
  ⟨by decide, computeSeam_valid sampleEnergy 3 3 [] (by decide) (by decide) (by decide)⟩

/-- C2, evaluated on `diagEnergy` (rows `0 1` and `9 0`): `computeSeam` returns
the seam `[0, 0]` of cumulative importance `9`, while the connected path
`[0, 1]` has cumulative importance `0`; the returned seam is not minimal. -/
theorem computeSeam_not_minimal :
    IsEnergy diagEnergy 2 2 ∧
    computeSeam diagEnergy [] = [0, 0] ∧
    IsPath 2 2 [0, 1] ∧
    seamEnergy diagEnergy [0, 1] = 0 ∧
    seamEnergy diagEnergy (computeSeam diagEnergy []) = 9 ∧
    seamEnergy diagEnergy [0, 1] < seamEnergy diagEnergy (computeSeam diagEnergy []) := by
  decide

/-! ## `carveSeam` -/

theorem idx_inj {dim x1 c1 x2 c2 : Nat} (h1 : c1 < dim) (h2 : c2 < dim)
    (h : x1 * dim + c1 = x2 * dim + c2) : x1 = x2 ∧ c1 = c2 := by
  rcases Nat.lt_trichotomy x1 x2 with hlt | heq | hgt
  · have := Nat.mul_le_mul_right dim (Nat.succ_le_of_lt hlt)
    rw [Nat.succ_mul] at this
    omega
  · subst heq
    exact ⟨rfl, by omega⟩
  · have := Nat.mul_le_mul_right dim (Nat.succ_le_of_lt hgt)
    rw [Nat.succ_mul] at this
    omega

theorem idx_lt {dim cols x c : Nat} (hx : x < cols) (hc : c < dim) :
    x * dim + c < cols * dim := by
  have := Nat.mul_le_mul_right dim (Nat.succ_le_of_lt hx)
  rw [Nat.succ_mul] at this
  omega

theorem copyPixel_shape (src : Mat) (dim : Nat) (dst : Mat) (y xd xs : Nat) :
    (dst.WF → (copyPixel src dim dst y xd xs).WF) ∧
    (copyPixel src dim dst y xd xs).rows = dst.rows ∧
    (copyPixel src dim dst y xd xs).cols = dst.cols ∧
    (copyPixel src dim dst y xd xs).chans = dst.chans := by
  unfold copyPixel
  apply foldl_range_inv
    (fun _ (t : Mat) => (dst.WF → t.WF) ∧ t.rows = dst.rows ∧ t.cols = dst.cols ∧
      t.chans = dst.chans)
  · exact ⟨id, rfl, rfl, rfl⟩
  · intro i t _ h
    exact ⟨fun hw => Mat.set_WF (h.1 hw) _ _ _, h.2.1, h.2.2.1, h.2.2.2⟩

theorem copyPixel_get (src : Mat) {dim : Nat} {dst : Mat} {y xd : Nat} (xs : Nat)
    (hwf : dst.WF) (hy : y < dst.rows) (hxd : xd < dst.cols) (hdim : dst.chans = dim)
    (y1 x1 c1 : Nat) (hc1 : c1 < dim) :
    (copyPixel src dim dst y xd xs).get y1 (x1 * dim + c1) =
      if y1 = y ∧ x1 = xd then src.get y (xs * dim + c1) else dst.get y1 (x1 * dim + c1) := by
  have key := foldl_range_inv
    (fun n (t : Mat) => t.WF ∧ t.rows = dst.rows ∧ t.cols = dst.cols ∧ t.chans = dst.chans ∧
      ∀ y1 x1 c1, c1 < dim → t.get y1 (x1 * dim + c1) =
        if y1 = y ∧ x1 = xd ∧ c1 < n then src.get y (xs * dim + c1)
        else dst.get y1 (x1 * dim + c1))
    (fun (dst : Mat) c => dst.set y (xd * dim + c) (src.get y (xs * dim + c)))
    dim dst
    ⟨hwf, rfl, rfl, rfl, by intro y1 x1 c1 _; simp⟩
    (by
      intro n t hn ⟨h1, h2, h3, h4, h5⟩
      refine ⟨Mat.set_WF h1 _ _ _, h2, h3, h4, ?_⟩
      intro y1 x1 c1 hc1
      by_cases hc : y1 = y ∧ x1 = xd ∧ c1 = n
      · obtain ⟨rfl, rfl, rfl⟩ := hc
        rw [Mat.get_set_same h1 _ (by omega) (by rw [h3, h4, hdim]; exact idx_lt hxd hn)]
        simp
      · have hne : y1 ≠ y ∨ x1 * dim + c1 ≠ xd * dim + n := by
          by_cases hy1 : y1 = y
          · right
            intro heq
            obtain ⟨hx, hcn⟩ := idx_inj hc1 hn heq
            exact hc ⟨hy1, hx, hcn⟩
          · exact Or.inl hy1
        rw [Mat.get_set_ne _ _ hne, h5 y1 x1 c1 hc1]
        by_cases hyx : y1 = y ∧ x1 = xd
        · obtain ⟨rfl, rfl⟩ := hyx
          have hcn : c1 ≠ n := fun h => hc ⟨rfl, rfl, h⟩
          by_cases hlt : c1 < n
          · simp [hlt, Nat.lt_succ_of_lt hlt]
          · have : ¬ c1 < n + 1 := by omega
            simp [hlt, this]
        · have e1 : ¬ (y1 = y ∧ x1 = xd ∧ c1 < n) := fun h => hyx ⟨h.1, h.2.1⟩
          have e2 : ¬ (y1 = y ∧ x1 = xd ∧ c1 < n + 1) := fun h => hyx ⟨h.1, h.2.1⟩
          simp [e1, e2])
  simp only at key
  have := key.2.2.2.2 y1 x1 c1 hc1
  unfold copyPixel
  rw [this]
  simp [hc1]

/-- A loop over `x` that copies pixel `f x` of row `y` of `src` to pixel `x`
of row `y` of `dst`, for `x < n`. -/
theorem copyRow_spec (src : Mat) {dim : Nat} (f : Nat → Nat) {dst : Mat} {y : Nat} (n : Nat)
    (hwf : dst.WF) (hy : y < dst.rows) (hn : n ≤ dst.cols) (hdim : dst.chans = dim) :
    ((List.range n).foldl (fun (t : Mat) (x : Nat) => copyPixel src dim t y x (f x)) dst).WF ∧
    ((List.range n).foldl (fun (t : Mat) (x : Nat) => copyPixel src dim t y x (f x)) dst).rows
      = dst.rows ∧
    ((List.range n).foldl (fun (t : Mat) (x : Nat) => copyPixel src dim t y x (f x)) dst).cols
      = dst.cols ∧
    ((List.range n).foldl (fun (t : Mat) (x : Nat) => copyPixel src dim t y x (f x)) dst).chans
      = dst.chans ∧
    ∀ y1 x1 c1, c1 < dim →
      ((List.range n).foldl (fun (t : Mat) (x : Nat) => copyPixel src dim t y x (f x)) dst).get
        y1 (x1 * dim + c1) =
      if y1 = y ∧ x1 < n then src.get y (f x1 * dim + c1) else dst.get y1 (x1 * dim + c1) := by
  apply foldl_range_inv
    (fun k (t : Mat) => t.WF ∧ t.rows = dst.rows ∧ t.cols = dst.cols ∧ t.chans = dst.chans ∧
      ∀ y1 x1 c1, c1 < dim → t.get y1 (x1 * dim + c1) =
        if y1 = y ∧ x1 < k then src.get y (f x1 * dim + c1) else dst.get y1 (x1 * dim + c1))
  · exact ⟨hwf, rfl, rfl, rfl, by intro y1 x1 c1 _; simp⟩
  · intro k t hk ⟨h1, h2, h3, h4, h5⟩
    obtain ⟨s1, s2, s3, s4⟩ := copyPixel_shape src dim t y k (f k)
    refine ⟨s1 h1, s2.trans h2, s3.trans h3, s4.trans h4, ?_⟩
    intro y1 x1 c1 hc1
    rw [copyPixel_get src (f k) h1 (by omega) (by omega) (h4.trans hdim) y1 x1 c1 hc1,
      h5 y1 x1 c1 hc1]
    by_cases hy1 : y1 = y
    · subst hy1
      by_cases hx : x1 = k
      · subst hx; simp
      · by_cases hlt : x1 < k
        · simp [hx, hlt, Nat.lt_succ_of_lt hlt]
        · have : ¬ x1 < k + 1 := by omega
          simp [hx, hlt, this]
    · simp [hy1]

theorem carveSeam_spec (img : Mat) (seam : List Int) :
    (carveSeam img seam).WF ∧ (carveSeam img seam).rows = img.rows ∧
    (carveSeam img seam).cols = img.cols - 1 ∧ (carveSeam img seam).chans = img.chans ∧
    ∀ y x c, y < img.rows → c < img.chans →
      (carveSeam img seam).get y (x * img.chans + c) =
        if x < img.cols - 1 then
          img.get y ((if (x : Int) < seam.getD y 0 then x else x + 1) * img.chans + c)
        else 0 := by
  unfold carveSeam
  simp only
  have key := foldl_range_inv
    (fun m (t : Mat) => t.WF ∧ t.rows = img.rows ∧ t.cols = img.cols - 1 ∧
      t.chans = img.chans ∧
      ∀ y x c, c < img.chans → t.get y (x * img.chans + c) =
        if y < m ∧ x < img.cols - 1 then
          img.get y ((if (x : Int) < seam.getD y 0 then x else x + 1) * img.chans + c)
        else 0)
    (fun (tmp : Mat) y =>
      (List.range (img.cols - 1)).foldl
        (fun (tmp : Mat) (x : Nat) =>
          copyPixel img img.chans tmp y x (if (x : Int) < seam.getD y 0 then x else x + 1))
        tmp)
    img.rows (Mat.alloc img.rows (img.cols - 1) img.chans 0)
    ⟨Mat.alloc_WF _ _ _ _, rfl, rfl, rfl, by intro y x c _; simp [Mat.get_alloc]⟩
    (by
      intro m t hm ⟨h1, h2, h3, h4, h5⟩
      obtain ⟨r1, r2, r3, r4, r5⟩ := copyRow_spec img
        (fun x => if (x : Int) < seam.getD m 0 then x else x + 1) (img.cols - 1)
        h1 (show m < t.rows by omega) (by omega) h4
      refine ⟨r1, r2.trans h2, r3.trans h3, r4.trans h4, ?_⟩
      intro y x c hc
      rw [r5 y x c hc, h5 y x c hc]
      by_cases hy : y = m
      · subst hy
        by_cases hx : x < img.cols - 1
        · simp [hx]
        · simp [hx]
      · by_cases hlt : y < m
        · simp [hy, hlt, Nat.lt_succ_of_lt hlt]
        · have : ¬ y < m + 1 := by omega
          simp [hy, hlt, this])
  simp only at key
  obtain ⟨k1, k2, k3, k4, k5⟩ := key
  refine ⟨k1, k2, k3, k4, ?_⟩
  intro y x c hy hc
  rw [k5 y x c hc]
  simp [hy]

theorem carveSeam_pixel (img : Mat) (seam : List Int) (y x : Nat)
    (hy : y < img.rows) (hx : x < img.cols - 1) :
    (carveSeam img seam).pixel y x =
      img.pixel y (if (x : Int) < seam.getD y 0 then x else x + 1) := by
  obtain ⟨_, _, _, h4, h5⟩ := carveSeam_spec img seam
  unfold Mat.pixel
  rw [h4]
  apply List.map_congr_left
  intro c hc
  rw [h5 y x c hy (List.mem_range.mp hc)]
  simp [hx]

theorem map_range_eraseIdx {α : Type} (f : Nat → α) (W s : Nat) (hs : s < W) :
    ((List.range W).map f).eraseIdx s =
      (List.range (W - 1)).map (fun x => f (if x < s then x else x + 1)) := by
  apply List.ext_getElem?
  intro n
  rw [List.getElem?_eraseIdx, List.getElem?_map, List.getElem?_map, List.getElem?_map]
  by_cases hn : n < W - 1
  · rw [List.getElem?_range hn]
    by_cases hns : n < s
    · rw [if_pos hns, List.getElem?_range (by omega)]
      simp [hns]
    · rw [if_neg hns, List.getElem?_range (by omega)]
      simp [hns]
  · rw [List.getElem?_eq_none (l := List.range (W - 1)) (by simp; omega)]
    have hns : ¬ n < s := by omega
    rw [if_neg hns, List.getElem?_eq_none (l := List.range W) (by simp; omega)]
    rfl

theorem carveSeam_pixelRow (img : Mat) (seam : List Int) (y : Nat) (hy : y < img.rows)
    (h0 : 0 ≤ seam.getD y 0) (hW : seam.getD y 0 < img.cols) :
    (carveSeam img seam).pixelRow y = (img.pixelRow y).eraseIdx (seam.getD y 0).toNat := by
  unfold Mat.pixelRow
  rw [map_range_eraseIdx _ _ _ (by omega), (carveSeam_spec img seam).2.2.1]
  apply List.map_congr_left
  intro x hx
  rw [carveSeam_pixel img seam y x hy (List.mem_range.mp hx)]
  congr 1
  by_cases h : (x : Int) < seam.getD y 0
  · have : x < (seam.getD y 0).toNat := by omega
    simp [h, this]
  · have : ¬ x < (seam.getD y 0).toNat := by omega
    simp [h, this]

/-- C3. Seam removal: for an image of width `W >= 1` and a seam with entries
in `[0, W)`, `carveSeam` yields an image of width `W - 1` with the same height
and channel count, whose sample at `(y, x, c)` is the input sample at column
`x` when `x < seam[y]` and at column `x + 1` otherwise; each output row is the
input row with exactly the pixel at index `seam[y]` deleted. -/
theorem carveSeam_removes_seam (img : Mat) (seam : List Int) (W H : Nat) (hW : 1 ≤ W)
    (hcols : img.cols = W) (hrows : img.rows = H)
    (hseam : ∀ y, y < H → 0 ≤ seam.getD y 0 ∧ seam.getD y 0 < W) :
    (carveSeam img seam).WF ∧ (carveSeam img seam).cols = W - 1 ∧
    (carveSeam img seam).rows = H ∧ (carveSeam img seam).chans = img.chans ∧
    (∀ y x c, y < H → x < W - 1 → c < img.chans →
      (carveSeam img seam).get y (x * img.chans + c) =
        img.get y ((if (x : Int) < seam.getD y 0 then x else x + 1) * img.chans + c)) ∧
    (∀ y, y < H →
      (carveSeam img seam).pixelRow y = (img.pixelRow y).eraseIdx (seam.getD y 0).toNat) := by
  obtain ⟨h1, h2, h3, h4, h5⟩ := carveSeam_spec img seam
  subst hcols hrows
  refine ⟨h1, h3, h2, h4, ?_, ?_⟩
  · intro y x c hy hx hc
    rw [h5 y x c hy hc, if_pos hx]
  · intro y hy
    exact carveSeam_pixelRow img seam y hy (hseam y hy).1 (hseam y hy).2

/-- An instance of C3: the seam `[1, 2]` carved from `sampleImage`. -/
theorem carveSeam_removes_seam_witness :
    (∀ y, y < 2 → 0 ≤ ([1, 2] : List Int).getD y 0 ∧ ([1, 2] : List Int).getD y 0 < (3 : Nat)) ∧
    (carveSeam sampleImage [1, 2]).pixelRow 0 = [[10, 11], [30, 31]] ∧
    (carveSeam sampleImage [1, 2]).pixelRow 1 = [[40, 41], [50, 51]] :=
  ⟨by decide,
   ((carveSeam_removes_seam sampleImage [1, 2] 3 2 (by decide) rfl rfl
      (by decide)).2.2.2.2.2 0 (by decide)).trans (by decide),
   ((carveSeam_removes_seam sampleImage [1, 2] 3 2 (by decide) rfl rfl
      (by decide)).2.2.2.2.2 1 (by decide)).trans (by decide)⟩

/-! ## `enlarge` -/

theorem flagCount_succ (seam : Mat) (y n : Nat) :
    flagCount seam y (n + 1) = flagCount seam y n + (if seam.get y n = 1 then 1 else 0) := by
  unfold flagCount
  rw [List.range_succ, List.countP_append]
  by_cases h : seam.get y n = 1 <;> simp [h]

theorem flagCount_mono (seam : Mat) (y : Nat) {n m : Nat} (h : n ≤ m) :
    flagCount seam y n ≤ flagCount seam y m := by
  induction h with
  | refl => exact Nat.le_refl _
  | step _ ih => rw [flagCount_succ]; omega

theorem flagCount_le (seam : Mat) (y n : Nat) : flagCount seam y n ≤ n := by
  induction n with
  | zero => simp [flagCount]
  | succ n ih => rw [flagCount_succ]; split <;> omega

theorem dupRow_succ (img seam : Mat) (y n : Nat) :
    dupRow img seam y (n + 1) = dupRow img seam y n ++
      (if seam.get y n = 1 then [img.pixel y n, img.pixel y n] else [img.pixel y n]) := by
  unfold dupRow
  rw [List.range_succ, List.flatMap_append, List.flatMap_singleton]

theorem dupRow_length (img seam : Mat) (y n : Nat) :
    (dupRow img seam y n).length = n + flagCount seam y n := by
  induction n with
  | zero => simp [dupRow, flagCount]
  | succ n ih =>
    rw [dupRow_succ, flagCount_succ, List.length_append, ih]
    split <;> simp <;> omega

/-- With exactly `k` flags in row `y` the clamp of the cursor never applies:
the loop over `x` writes pixel `x` at column `x + flagCount x`, and its copy
one column further. -/
theorem enlargeWith_row {σ : Type} (write : σ → Nat → Nat → Nat → σ) (W k : Nat) (seam : Mat)
    (y : Nat) (out : σ) (hk : flagCount seam y W = k) (n : Nat) (hn : n ≤ W) :
    (List.range n).foldl
      (fun (st : σ × Nat) x =>
        if seam.get y x = 1 then
          (write (write st.1 y (min (x + st.2) (W + k - 1)) x) y
            (min (x + st.2) (W + k - 1) + 1) x, st.2 + 1)
        else (write st.1 y (min (x + st.2) (W + k - 1)) x, st.2))
      (out, 0) =
    ((List.range n).foldl
      (fun (o : σ) x =>
        if seam.get y x = 1 then
          write (write o y (x + flagCount seam y x) x) y (x + flagCount seam y x + 1) x
        else write o y (x + flagCount seam y x) x)
      out, flagCount seam y n) := by
  induction n with
  | zero => simp [flagCount]
  | succ n ih =>
    rw [List.range_succ, List.foldl_append, List.foldl_append, ih (by omega)]
    have h1 := flagCount_mono seam y (show n ≤ W by omega)
    have hmin : min (n + flagCount seam y n) (W + k - 1) = n + flagCount seam y n := by
      apply Nat.min_eq_left
      omega
    simp only [List.foldl_cons, List.foldl_nil, hmin, flagCount_succ]
    split <;> rfl

theorem copyPixel_pixel (src : Mat) {dim : Nat} {dst : Mat} {y xd : Nat} (xs : Nat)
    (hwf : dst.WF) (hy : y < dst.rows) (hxd : xd < dst.cols) (hdim : dst.chans = dim)
    (hsrc : src.chans = dim) (y1 x1 : Nat) :
    (copyPixel src dim dst y xd xs).pixel y1 x1 =
      if y1 = y ∧ x1 = xd then src.pixel y xs else dst.pixel y1 x1 := by
  unfold Mat.pixel
  rw [(copyPixel_shape src dim dst y xd xs).2.2.2, hdim, hsrc]
  by_cases h : y1 = y ∧ x1 = xd
  · rw [if_pos h]
    apply List.map_congr_left
    intro c hc
    rw [copyPixel_get src xs hwf hy hxd hdim y1 x1 c (List.mem_range.mp hc), if_pos h]
  · rw [if_neg h]
    apply List.map_congr_left
    intro c hc
    rw [copyPixel_get src xs hwf hy hxd hdim y1 x1 c (List.mem_range.mp hc), if_neg h]

theorem map_range_set {α : Type} (g : Nat → α) (n xd : Nat) (p : α) :
    (List.range n).map (fun x => if x = xd then p else g x) = ((List.range n).map g).set xd p := by
  apply List.ext_getElem?
  intro i
  rw [List.getElem?_set, List.getElem?_map, List.getElem?_map]
  by_cases hi : i < n
  · rw [List.getElem?_range hi]
    by_cases hx : xd = i
    · subst hx; simp [hi]
    · have : ¬ i = xd := fun h => hx h.symm
      simp [hx, this]
  · rw [List.getElem?_eq_none (l := List.range n) (by simp; omega)]
    by_cases hx : xd = i
    · subst hx; simp [hi]
    · simp [hx]

theorem copyPixel_pixelRow (src : Mat) {dim : Nat} {dst : Mat} {y xd : Nat} (xs : Nat)
    (hwf : dst.WF) (hy : y < dst.rows) (hxd : xd < dst.cols) (hdim : dst.chans = dim)
    (hsrc : src.chans = dim) (y1 : Nat) :
    (copyPixel src dim dst y xd xs).pixelRow y1 =
      if y1 = y then (dst.pixelRow y).set xd (src.pixel y xs) else dst.pixelRow y1 := by
  unfold Mat.pixelRow
  rw [(copyPixel_shape src dim dst y xd xs).2.2.1]
  by_cases h : y1 = y
  · subst h
    rw [if_pos rfl, ← map_range_set]
    apply List.map_congr_left
    intro x _
    rw [copyPixel_pixel src xs hwf hy hxd hdim hsrc]
    simp
  · rw [if_neg h]
    apply List.map_congr_left
    intro x _
    rw [copyPixel_pixel src xs hwf hy hxd hdim hsrc]
    simp [h]

theorem Mat.pixelRow_length (m : Mat) (y : Nat) : (m.pixelRow y).length = m.cols := by
  simp [Mat.pixelRow]

theorem take_set_gt {α : Type} (L : List α) (i j : Nat) (p : α) (hij : i ≤ j) :
    (L.set j p).take i = L.take i := by
  apply List.ext_getElem?
  intro n
  rw [List.getElem?_take, List.getElem?_take]
  split
  · rw [List.getElem?_set_ne (by omega)]
  · rfl

theorem take_set_succ {α : Type} (L : List α) (i : Nat) (p : α) (hi : i < L.length) :
    (L.set i p).take (i + 1) = L.take i ++ [p] := by
  rw [List.take_succ, List.getElem?_set_self (by simpa using hi), take_set_gt L i i p (Nat.le_refl i)]
  simp

/-- The loop over `x` of `enlarge` at row `y`, the mask having exactly `k`
flags in that row: the row of the output becomes the source row with the
flagged pixels doubled, and the other rows are left as they are. -/
theorem enlargeRow_spec (img seam : Mat) {dim W k : Nat} {out0 : Mat} {y : Nat}
    (hwf : out0.WF) (hy : y < out0.rows) (hcols : out0.cols = W + k)
    (hdim : out0.chans = dim) (hsrc : img.chans = dim) (hk : flagCount seam y W = k)
    (n : Nat) (hn : n ≤ W) :
    ((List.range n).foldl
      (fun (o : Mat) x =>
        if seam.get y x = 1 then
          copyPixel img dim (copyPixel img dim o y (x + flagCount seam y x) x) y
            (x + flagCount seam y x + 1) x
        else copyPixel img dim o y (x + flagCount seam y x) x) out0).WF ∧
    ((List.range n).foldl
      (fun (o : Mat) x =>
        if seam.get y x = 1 then
          copyPixel img dim (copyPixel img dim o y (x + flagCount seam y x) x) y
            (x + flagCount seam y x + 1) x
        else copyPixel img dim o y (x + flagCount seam y x) x) out0).rows = out0.rows ∧
    ((List.range n).foldl
      (fun (o : Mat) x =>
        if seam.get y x = 1 then
          copyPixel img dim (copyPixel img dim o y (x + flagCount seam y x) x) y
            (x + flagCount seam y x + 1) x
        else copyPixel img dim o y (x + flagCount seam y x) x) out0).cols = out0.cols ∧
    ((List.range n).foldl
      (fun (o : Mat) x =>
        if seam.get y x = 1 then
          copyPixel img dim (copyPixel img dim o y (x + flagCount seam y x) x) y
            (x + flagCount seam y x + 1) x
        else copyPixel img dim o y (x + flagCount seam y x) x) out0).chans = out0.chans ∧
    (((List.range n).foldl
      (fun (o : Mat) x =>
        if seam.get y x = 1 then
          copyPixel img dim (copyPixel img dim o y (x + flagCount seam y x) x) y
            (x + flagCount seam y x + 1) x
        else copyPixel img dim o y (x + flagCount seam y x) x) out0).pixelRow y).take
        (n + flagCount seam y n) = dupRow img seam y n ∧
    ∀ y1, y1 ≠ y →
      ((List.range n).foldl
        (fun (o : Mat) x =>
          if seam.get y x = 1 then
            copyPixel img dim (copyPixel img dim o y (x + flagCount seam y x) x) y
              (x + flagCount seam y x + 1) x
          else copyPixel img dim o y (x + flagCount seam y x) x) out0).pixelRow y1 =
      out0.pixelRow y1 := by
  apply foldl_range_inv
    (fun i (o : Mat) => o.WF ∧ o.rows = out0.rows ∧ o.cols = out0.cols ∧ o.chans = out0.chans ∧
      (o.pixelRow y).take (i + flagCount seam y i) = dupRow img seam y i ∧
      ∀ y1, y1 ≠ y → o.pixelRow y1 = out0.pixelRow y1)
  · refine ⟨hwf, rfl, rfl, rfl, ?_, fun _ _ => rfl⟩
    simp [flagCount, dupRow]
  · intro i o hi ⟨h1, h2, h3, h4, h5, h6⟩
    have hfc := flagCount_mono seam y (show i + 1 ≤ W by omega)
    rw [flagCount_succ] at hfc
    have hxd : i + flagCount seam y i < o.cols := by
      have := flagCount_mono seam y (show i ≤ W by omega)
      omega
    obtain ⟨s1, s2, s3, s4⟩ := copyPixel_shape img dim o y (i + flagCount seam y i) i
    have hrow1 := copyPixel_pixelRow img i h1 (show y < o.rows by omega) hxd (h4.trans hdim) hsrc
    have htake1 : ((copyPixel img dim o y (i + flagCount seam y i) i).pixelRow y).take
        (i + flagCount seam y i + 1) = dupRow img seam y i ++ [img.pixel y i] := by
      rw [hrow1 y, if_pos rfl, take_set_succ _ _ _ (by rw [Mat.pixelRow_length]; exact hxd), h5]
    by_cases hf : seam.get y i = 1
    · simp only [hf, if_true] at hfc ⊢
      obtain ⟨t1, t2, t3, t4⟩ := copyPixel_shape img dim
        (copyPixel img dim o y (i + flagCount seam y i) i) y (i + flagCount seam y i + 1) i
      have hxd2 : i + flagCount seam y i + 1 <
          (copyPixel img dim o y (i + flagCount seam y i) i).cols := by
        rw [s3]; omega
      have hrow2 := copyPixel_pixelRow img i (s1 h1)
        (show y < (copyPixel img dim o y (i + flagCount seam y i) i).rows by rw [s2]; omega)
        hxd2 ((s4.trans h4).trans hdim) hsrc
      refine ⟨t1 (s1 h1), (t2.trans s2).trans h2, (t3.trans s3).trans h3,
        (t4.trans s4).trans h4, ?_, ?_⟩
      · rw [flagCount_succ, dupRow_succ]
        simp only [hf, if_true]
        rw [hrow2 y, if_pos rfl,
          show i + 1 + (flagCount seam y i + 1) = (i + flagCount seam y i + 1) + 1 by omega,
          take_set_succ _ _ _ (by rw [Mat.pixelRow_length]; exact hxd2), htake1]
        simp
      · intro y1 hy1
        rw [hrow2 y1, if_neg hy1, hrow1 y1, if_neg hy1]
        exact h6 y1 hy1
    · simp only [hf, if_false] at hfc ⊢
      refine ⟨s1 h1, s2.trans h2, s3.trans h3, s4.trans h4, ?_, ?_⟩
      · rw [flagCount_succ, dupRow_succ]
        simp only [hf, if_false]
        rw [show i + 1 + (flagCount seam y i + 0) = (i + flagCount seam y i) + 1 by omega, htake1]
      · intro y1 hy1
        rw [hrow1 y1, if_neg hy1]
        exact h6 y1 hy1

/-- With exactly `k` flags in every row, `enlarge` runs as the two plain
loops that write pixel `x` at column `x + flagCount x`. -/
theorem enlargeWith_eq {σ : Type} (write : σ → Nat → Nat → Nat → σ) (W H k : Nat) (seam : Mat)
    (out : σ) (hmask : ∀ y, y < H → flagCount seam y W = k) :
    enlargeWith write W H k seam out =
      (List.range H).foldl
        (fun (o : σ) y =>
          (List.range W).foldl
            (fun (o : σ) x =>
              if seam.get y x = 1 then
                write (write o y (x + flagCount seam y x) x) y (x + flagCount seam y x + 1) x
              else write o y (x + flagCount seam y x) x)
            o)
        out := by
  unfold enlargeWith
  have key : ∀ m, m ≤ H →
      (List.range m).foldl
        (fun (out : σ) y =>
          ((List.range W).foldl
            (fun (st : σ × Nat) x =>
              let xx := min (x + st.2) (W + k - 1)
              let out1 := write st.1 y xx x
              if seam.get y x = 1 then (write out1 y (xx + 1) x, st.2 + 1) else (out1, st.2))
            (out, 0)).1)
        out =
      (List.range m).foldl
        (fun (o : σ) y =>
          (List.range W).foldl
            (fun (o : σ) x =>
              if seam.get y x = 1 then
                write (write o y (x + flagCount seam y x) x) y (x + flagCount seam y x + 1) x
              else write o y (x + flagCount seam y x) x)
            o)
        out := by
    intro m
    induction m with
    | zero => intro _; rfl
    | succ m ih =>
      intro hm
      rw [List.range_succ, List.foldl_append, List.foldl_append, ih (by omega)]
      simp only [List.foldl_cons, List.foldl_nil]
      rw [enlargeWith_row write W k seam m _ (hmask m (by omega)) W (Nat.le_refl W)]
  exact key H (Nat.le_refl H)

theorem enlarge_shape (img seam : Mat) (npix : Nat) :
    (enlarge img seam npix).WF ∧ (enlarge img seam npix).rows = img.rows ∧
    (enlarge img seam npix).cols = img.cols + npix ∧ (enlarge img seam npix).chans = 3 := by
  unfold enlarge enlargeWith
  apply foldl_range_inv
    (fun _ (o : Mat) => o.WF ∧ o.rows = img.rows ∧ o.cols = img.cols + npix ∧ o.chans = 3)
  · exact ⟨Mat.alloc_WF _ _ _ _, rfl, rfl, rfl⟩
  · intro y o _ ho
    have key := foldl_range_inv
      (fun _ (st : Mat × Nat) =>
        st.1.WF ∧ st.1.rows = img.rows ∧ st.1.cols = img.cols + npix ∧ st.1.chans = 3)
      (fun (st : Mat × Nat) x =>
        let xx := min (x + st.2) (img.cols + npix - 1)
        let out1 := copyPixel img img.chans st.1 y xx x
        if seam.get y x = 1 then (copyPixel img img.chans out1 y (xx + 1) x, st.2 + 1)
        else (out1, st.2))
      img.cols (o, 0) ho
      (by
        intro x st _ ⟨h1, h2, h3, h4⟩
        obtain ⟨s1, s2, s3, s4⟩ := copyPixel_shape img img.chans st.1 y
          (min (x + st.2) (img.cols + npix - 1)) x
        obtain ⟨t1, t2, t3, t4⟩ := copyPixel_shape img img.chans
          (copyPixel img img.chans st.1 y (min (x + st.2) (img.cols + npix - 1)) x) y
          (min (x + st.2) (img.cols + npix - 1) + 1) x
        simp only
        split
        · exact ⟨t1 (s1 h1), (t2.trans s2).trans h2, (t3.trans s3).trans h3,
            (t4.trans s4).trans h4⟩
        · exact ⟨s1 h1, s2.trans h2, s3.trans h3, s4.trans h4⟩)
    exact key

theorem enlarge_pixelRow (img seam : Mat) (k : Nat) (hch : img.chans = 3)
    (hmask : ∀ y, y < img.rows → flagCount seam y img.cols = k) (y : Nat) (hy : y < img.rows) :
    (enlarge img seam k).pixelRow y = dupRow img seam y img.cols := by
  unfold enlarge
  rw [enlargeWith_eq _ _ _ _ _ _ hmask]
  have key := foldl_range_inv
    (fun m (o : Mat) => o.WF ∧ o.rows = img.rows ∧ o.cols = img.cols + k ∧ o.chans = 3 ∧
      ∀ y1, y1 < m → o.pixelRow y1 = dupRow img seam y1 img.cols)
    (fun (o : Mat) y =>
      (List.range img.cols).foldl
        (fun (o : Mat) x =>
          if seam.get y x = 1 then
            copyPixel img img.chans (copyPixel img img.chans o y (x + flagCount seam y x) x) y
              (x + flagCount seam y x + 1) x
          else copyPixel img img.chans o y (x + flagCount seam y x) x)
        o)
    img.rows (Mat.alloc img.rows (img.cols + k) 3 0)
    ⟨Mat.alloc_WF _ _ _ _, rfl, rfl, rfl, fun _ h => absurd h (Nat.not_lt_zero _)⟩
    (by
      intro m o hm ⟨h1, h2, h3, h4, h5⟩
      obtain ⟨r1, r2, r3, r4, r5, r6⟩ := enlargeRow_spec img seam h1 (show m < o.rows by omega)
        h3 (h4.trans hch.symm) rfl (hmask m hm) img.cols (Nat.le_refl _)
      refine ⟨r1, r2.trans h2, r3.trans h3, r4.trans h4, ?_⟩
      intro y1 hy1
      by_cases he : y1 = m
      · subst he
        rw [← r5, hmask y1 hm, List.take_of_length_le]
        rw [Mat.pixelRow_length, r3, h3]
      · rw [r6 y1 he]
        exact h5 y1 (by omega))
  exact key.2.2.2.2 y hy

theorem enlargeWrites_cover (img seam : Mat) (k : Nat)
    (hmask : ∀ y, y < img.rows → flagCount seam y img.cols = k) (y c : Nat)
    (hy : y < img.rows) (hc : c < img.cols + k) : (y, c) ∈ enlargeWrites img seam k := by
  unfold enlargeWrites
  rw [enlargeWith_eq _ _ _ _ _ _ hmask]
  have key := foldl_range_inv
    (fun m (log : List (Nat × Nat)) => ∀ y1 c1, y1 < m → c1 < img.cols + k → (y1, c1) ∈ log)
    (fun (o : List (Nat × Nat)) y =>
      (List.range img.cols).foldl
        (fun (o : List (Nat × Nat)) x =>
          if seam.get y x = 1 then
            (o ++ [(y, x + flagCount seam y x)]) ++ [(y, x + flagCount seam y x + 1)]
          else o ++ [(y, x + flagCount seam y x)])
        o)
    img.rows []
    (fun _ _ h => absurd h (Nat.not_lt_zero _))
    (by
      intro m log0 hm h0
      have row := foldl_range_inv
        (fun i (log : List (Nat × Nat)) => (∀ w, w ∈ log0 → w ∈ log) ∧
          ∀ c1, c1 < i + flagCount seam m i → (m, c1) ∈ log)
        (fun (o : List (Nat × Nat)) x =>
          if seam.get m x = 1 then
            (o ++ [(m, x + flagCount seam m x)]) ++ [(m, x + flagCount seam m x + 1)]
          else o ++ [(m, x + flagCount seam m x)])
        img.cols log0
        ⟨fun _ h => h, by intro c1 h; simp [flagCount] at h⟩
        (by
          intro i log _ ⟨h1, h2⟩
          rw [flagCount_succ]
          by_cases hf : seam.get m i = 1
          · simp only [hf, if_true]
            refine ⟨fun w hw => by simp [h1 w hw], ?_⟩
            intro c1 hc1
            by_cases hlt : c1 < i + flagCount seam m i
            · simp [h2 c1 hlt]
            · have : c1 = i + flagCount seam m i ∨ c1 = i + flagCount seam m i + 1 := by omega
              rcases this with h | h <;> simp [h]
          · simp only [hf, if_false]
            refine ⟨fun w hw => by simp [h1 w hw], ?_⟩
            intro c1 hc1
            by_cases hlt : c1 < i + flagCount seam m i
            · simp [h2 c1 hlt]
            · have : c1 = i + flagCount seam m i := by omega
              simp [this])
      intro y1 c1 hy1 hc1
      by_cases he : y1 = m
      · subst he
        exact row.2 c1 (by rw [hmask y1 hm]; exact hc1)
      · exact row.1 _ (h0 y1 c1 (by omega) hc1))
  exact key y c hy hc

/-- The insertion pass on three-channel images, the ones that `main` passes
to it: for a mask with exactly `k` flags in each row, `enlarge` produces an
image of width `W + k` in which each row is the source row, read left to right, with every flagged pixel immediately followed by one
copy of itself and every other pixel appearing once; every one of the `W + k`
columns of the row is written. -/
theorem enlarge_doubles_flagged (img seam : Mat) (W H k : Nat)
    (hcols : img.cols = W) (hrows : img.rows = H) (hch : img.chans = 3)
    (hmask : ∀ y, y < H → flagCount seam y W = k) :
    (enlarge img seam k).cols = W + k ∧ (enlarge img seam k).rows = H ∧
    ∀ y, y < H →
      (enlarge img seam k).pixelRow y = dupRow img seam y W ∧
      ((enlarge img seam k).pixelRow y).length = W + k ∧
      ∀ c, c < W + k → (y, c) ∈ enlargeWrites img seam k := by
  subst hcols hrows
  obtain ⟨_, h2, h3, _⟩ := enlarge_shape img seam k
  refine ⟨h3, h2, ?_⟩
  intro y hy
  refine ⟨enlarge_pixelRow img seam k hch hmask y hy, ?_, ?_⟩
  · rw [Mat.pixelRow_length, h3]
  · intro c hc
    exact enlargeWrites_cover img seam k hmask y c hy hc

/-- An instance of `enlarge_doubles_flagged`: `twoPixels` enlarged by one
column with the flag on column 1. -/
theorem enlarge_doubles_flagged_witness :
    (∀ y, y < 1 → flagCount oneFlag y 2 = 1) ∧
    (enlarge twoPixels oneFlag 1).pixelRow 0 = [[1, 2, 3], [4, 5, 6], [4, 5, 6]] :=
  ⟨by decide,
   ((enlarge_doubles_flagged twoPixels oneFlag 2 1 1 rfl rfl rfl (by decide)).2.2 0
      (by decide)).1.trans (by decide)⟩

/-- C5, evaluated on `twoPixels` with `k = 1` and the mask `twoFlags`, which
has two flags in its row: `enlarge` assigns the output columns `0, 1, 2, 3`
of row `0`, and column `3` is not below the allocated width `2 + 1`. -/
theorem enlarge_writes_past_width :
    flagCount twoFlags 0 2 ≠ 1 ∧
    enlargeWrites twoPixels twoFlags 1 = [(0, 0), (0, 1), (0, 2), (0, 3)] ∧
    (enlarge twoPixels twoFlags 1).cols = 3 ∧
    ¬ ∀ w, w ∈ enlargeWrites twoPixels twoFlags 1 → w.2 < 2 + 1 := by
  decide

/-! ## The tracking loop of the enlarge branch -/

theorem indexImage_spec (W H : Nat) :
    (indexImage W H).WF ∧ (indexImage W H).rows = H ∧ (indexImage W H).cols = W ∧
    (indexImage W H).chans = 2 ∧
    ∀ y x, y < H → x < W →
      (indexImage W H).get y (x * 2 + 0) = (x : Int) ∧
      (indexImage W H).get y (x * 2 + 1) = (y : Int) := by
  unfold indexImage
  apply foldl_range_inv
    (fun m (t : Mat) => t.WF ∧ t.rows = H ∧ t.cols = W ∧ t.chans = 2 ∧
      ∀ y x, y < m → x < W →
        t.get y (x * 2 + 0) = (x : Int) ∧ t.get y (x * 2 + 1) = (y : Int))
  · exact ⟨Mat.alloc_WF _ _ _ _, rfl, rfl, rfl, fun _ _ h => absurd h (Nat.not_lt_zero _)⟩
  · intro m t hm ⟨h1, h2, h3, h4, h5⟩
    have row := foldl_range_inv
      (fun n (u : Mat) => u.WF ∧ u.rows = H ∧ u.cols = W ∧ u.chans = 2 ∧
        (∀ y x, y < m → x < W →
          u.get y (x * 2 + 0) = (x : Int) ∧ u.get y (x * 2 + 1) = (y : Int)) ∧
        ∀ x, x < n → u.get m (x * 2 + 0) = (x : Int) ∧ u.get m (x * 2 + 1) = (m : Int))
      (fun (idx : Mat) (x : Nat) => (idx.set m (x * 2 + 0) (x : Int)).set m (x * 2 + 1) (m : Int))
      W t ⟨h1, h2, h3, h4, h5, fun _ h => absurd h (Nat.not_lt_zero _)⟩
      (by
        intro n u hn ⟨u1, u2, u3, u4, u5, u6⟩
        have w1 := Mat.set_WF u1 m (n * 2 + 0) (n : Int)
        refine ⟨Mat.set_WF w1 _ _ _, u2, u3, u4, ?_, ?_⟩
        · intro y x hy hx
          have hne : y ≠ m := by omega
          rw [Mat.get_set_ne _ _ (Or.inl hne), Mat.get_set_ne _ _ (Or.inl hne),
            Mat.get_set_ne _ _ (Or.inl hne), Mat.get_set_ne _ _ (Or.inl hne)]
          exact u5 y x hy hx
        · intro x hx
          by_cases hxn : x = n
          · subst hxn
            rw [Mat.get_set_ne _ _ (Or.inr (by omega)),
              Mat.get_set_same u1 _ (by omega) (by rw [u3, u4]; omega),
              Mat.get_set_same w1 _ (by simp; omega) (by simp [u3, u4]; omega)]
            exact ⟨rfl, rfl⟩
          · rw [Mat.get_set_ne _ _ (Or.inr (by omega)), Mat.get_set_ne _ _ (Or.inr (by omega)),
              Mat.get_set_ne _ _ (Or.inr (by omega)), Mat.get_set_ne _ _ (Or.inr (by omega))]
            exact u6 x (by omega))
    obtain ⟨r1, r2, r3, r4, r5, r6⟩ := row
    refine ⟨r1, r2, r3, r4, ?_⟩
    intro y x hy hx
    by_cases he : y = m
    · subst he; exact r6 x hx
    · exact r5 y x (by omega) hx

theorem pixel_two (m : Mat) (y x : Nat) (h : m.chans = 2) :
    m.pixel y x = [m.get y (x * 2 + 0), m.get y (x * 2 + 1)] := by
  unfold Mat.pixel
  rw [h]
  rfl

theorem indexImage_pixelRow (W H y : Nat) (hy : y < H) :
    (indexImage W H).pixelRow y = coordRow W y := by
  obtain ⟨_, _, h3, h4, h5⟩ := indexImage_spec W H
  unfold Mat.pixelRow coordRow
  rw [h3]
  apply List.map_congr_left
  intro x hx
  rw [pixel_two _ _ _ h4, (h5 y x hy (List.mem_range.mp hx)).1,
    (h5 y x hy (List.mem_range.mp hx)).2]

theorem eraseIdx_map {α β : Type} (f : α → β) (l : List α) (i : Nat) :
    (l.map f).eraseIdx i = (l.eraseIdx i).map f := by
  induction l generalizing i with
  | nil => rfl
  | cons a l ih =>
    cases i with
    | zero => rfl
    | succ i => simp [List.eraseIdx, ih]

theorem pixelRow_getElem? (m : Mat) (y x : Nat) (hx : x < m.cols) :
    (m.pixelRow y)[x]? = some (m.pixel y x) := by
  unfold Mat.pixelRow
  rw [List.getElem?_map, List.getElem?_range hx]
  rfl

theorem flatEnergy_isEstimator : IsEstimator flatEnergy := by
  intro m _ _
  refine ⟨Mat.alloc_WF _ _ _ _, rfl, rfl, rfl, ?_⟩
  intro r hr v hv
  simp only [flatEnergy, Mat.alloc] at hr
  rw [List.eq_of_mem_replicate hr] at hv
  rw [List.eq_of_mem_replicate hv]
  omega

theorem lookup_coord (img : Mat) (x y : Nat) :
    lookup img [(x : Int), (y : Int)] = img.pixel y x := by
  simp [lookup]

theorem tracked_init (img : Mat) (W H : Nat) (hwf : img.WF) (hcols : img.cols = W)
    (hrows : img.rows = H) : Tracked img W H 0 (img, indexImage W H, []) := by
  obtain ⟨i1, i2, i3, i4, _⟩ := indexImage_spec W H
  refine ⟨⟨hwf, hrows, by simpa using hcols, rfl⟩, ⟨i1, i2, by simpa using i3, i4⟩, ?_⟩
  intro y hy
  simp only
  rw [indexImage_pixelRow W H y hy]
  refine ⟨List.Sublist.refl _, ?_⟩
  unfold Mat.pixelRow coordRow
  rw [hcols, List.map_map]
  apply List.map_congr_left
  intro x _
  simp [lookup_coord]

theorem tracked_step (detectEdge : Mat → Mat) (hest : IsEstimator detectEdge) (img : Mat)
    (W H i : Nat) (hi : i < W) (st : Mat × Mat × List Int) (h : Tracked img W H i st) :
    Tracked img W H (i + 1) (trackStep detectEdge st) := by
  obtain ⟨⟨a1, a2, a3, a4⟩, ⟨b1, b2, b3, b4⟩, hrow⟩ := h
  have hE : IsEnergy (detectEdge st.1) (W - i) H := by
    have := hest st.1 a1 (by omega)
    rwa [a2, a3] at this
  obtain ⟨c1, c2, c3, c4, _⟩ := carveSeam_spec st.1 (computeSeam (detectEdge st.1) st.2.2)
  obtain ⟨d1, d2, d3, d4, _⟩ := carveSeam_spec st.2.1 (computeSeam (detectEdge st.1) st.2.2)
  refine ⟨⟨c1, c2.trans a2, c3.trans (by rw [a3]; omega), c4.trans a4⟩,
    ⟨d1, d2.trans b2, d3.trans (by rw [b3]; omega), d4.trans b4⟩, ?_⟩
  intro y hy
  have hr := computeSeam_range hE (by omega) (by omega) st.2.2 y hy
  obtain ⟨s1, s2⟩ := hrow y hy
  simp only [trackStep]
  rw [carveSeam_pixelRow st.1 _ y (by omega) hr.1 (by rw [a3]; exact hr.2),
    carveSeam_pixelRow st.2.1 _ y (by omega) hr.1 (by rw [b3]; exact hr.2)]
  refine ⟨(List.eraseIdx_sublist _ _).trans s1, ?_⟩
  rw [s2, eraseIdx_map]

theorem track_tracked (detectEdge : Mat → Mat) (hest : IsEstimator detectEdge) (img : Mat)
    (W H k : Nat) (hk : k ≤ W) (hwf : img.WF) (hcols : img.cols = W) (hrows : img.rows = H) :
    Tracked img W H k (track detectEdge img k) := by
  unfold track
  rw [hcols, hrows]
  apply foldl_range_inv (fun i st => Tracked img W H i st)
  · exact tracked_init img W H hwf hcols hrows
  · intro i st hi h
    exact tracked_step detectEdge hest img W H i (by omega) st h

theorem coordRow_nodup (W y : Nat) : (coordRow W y).Nodup := by
  unfold coordRow
  apply List.Nodup.map _ (List.nodup_range W)
  intro a b h
  simp only [List.cons.injEq, Nat.cast_inj, and_true] at h
  exact h

/-- C6. Coordinate tracking: after `k < W` iterations of the tracking loop,
for any energy estimator returning a map of the current image's dimensions,
every row `y` of the coordinate-index image holds exactly `W - k`
coordinates, each of the form `(x, y)` with `0 <= x < W`, and none of them
twice; the row is a subsequence of the original row of coordinates. -/
theorem track_coordinates (detectEdge : Mat → Mat) (img : Mat) (W H k : Nat)
    (hest : IsEstimator detectEdge) (hwf : img.WF) (hcols : img.cols = W) (hrows : img.rows = H)
    (hk : k < W) :
    (track detectEdge img k).2.1.cols = W - k ∧ (track detectEdge img k).2.1.rows = H ∧
    ∀ y, y < H →
      ((track detectEdge img k).2.1.pixelRow y).length = W - k ∧
      (∀ p, p ∈ (track detectEdge img k).2.1.pixelRow y →
        ∃ x : Nat, x < W ∧ p = [(x : Int), (y : Int)]) ∧
      ((track detectEdge img k).2.1.pixelRow y).Nodup ∧
      (((track detectEdge img k).2.1.pixelRow y).map (fun p => p.getD 0 0)).Nodup ∧
      ((track detectEdge img k).2.1.pixelRow y).Sublist (coordRow W y) := by
  obtain ⟨_, ⟨_, b2, b3, _⟩, hrow⟩ :=
    track_tracked detectEdge hest img W H k (by omega) hwf hcols hrows
  refine ⟨b3, b2, ?_⟩
  intro y hy
  obtain ⟨s1, _⟩ := hrow y hy
  refine ⟨by rw [Mat.pixelRow_length, b3], ?_, s1.nodup (coordRow_nodup W y), ?_, s1⟩
  · intro p hp
    have := s1.subset hp
    simp only [coordRow, List.mem_map, List.mem_range] at this
    obtain ⟨x, hx, rfl⟩ := this
    exact ⟨x, hx, rfl⟩
  · have hsub := List.Sublist.map (fun p : List Int => p.getD 0 0) s1
    apply hsub.nodup
    unfold coordRow
    rw [List.map_map]
    apply List.Nodup.map _ (List.nodup_range W)
    intro a b h
    simpa using h

/-- An instance of C6: one tracking iteration on `twoPixels` with the zero
estimator leaves the coordinate `(1, 0)`. -/
theorem track_coordinates_witness :
    IsEstimator flatEnergy ∧ twoPixels.WF ∧
    (track flatEnergy twoPixels 1).2.1.pixelRow 0 = [[1, 0]] ∧
    ((track flatEnergy twoPixels 1).2.1.pixelRow 0).length = 2 - 1 :=
  ⟨flatEnergy_isEstimator, by decide, by decide,
   ((track_coordinates flatEnergy twoPixels 2 1 1 flatEnergy_isEstimator (by decide) rfl rfl
      (by decide)).2.2 0 (by decide)).1⟩

theorem pixel_getD (m : Mat) (y x c : Nat) (hc : c < m.chans) :
    (m.pixel y x).getD c 0 = m.get y (x * m.chans + c) := by
  unfold Mat.pixel
  rw [List.getD_eq_getElem?_getD, List.getElem?_map, List.getElem?_range hc]
  rfl

theorem tracked_pixel {img : Mat} {W H i : Nat} {st : Mat × Mat × List Int}
    (h : Tracked img W H i st) (y x : Nat) (hy : y < H) (hx : x < W - i) :
    st.1.pixel y x = lookup img (st.2.1.pixel y x) := by
  obtain ⟨⟨_, _, a3, _⟩, ⟨_, _, b3, _⟩, hrow⟩ := h
  have h1 := pixelRow_getElem? st.1 y x (by omega)
  rw [(hrow y hy).2, List.getElem?_map, pixelRow_getElem? st.2.1 y x (by omega)] at h1
  simpa using h1.symm

/-- C7. Lockstep invariant: after `i <= k < W` tracking iterations, the pixel
of the working image at `(y, x)` is the pixel of the original image at the
coordinate `(yy, xx)` that the coordinate-index image stores at `(y, x)`, in
every channel. -/
theorem track_lockstep (detectEdge : Mat → Mat) (img : Mat) (W H k i : Nat)
    (hest : IsEstimator detectEdge) (hwf : img.WF) (hcols : img.cols = W) (hrows : img.rows = H)
    (hi : i ≤ k) (hk : k < W) :
    ∀ y x, y < H → x < W - i →
      (track detectEdge img i).1.pixel y x =
        lookup img ((track detectEdge img i).2.1.pixel y x) ∧
      ∀ c, c < img.chans →
        (track detectEdge img i).1.get y (x * img.chans + c) =
          img.get ((track detectEdge img i).2.1.get y (x * 2 + 1)).toNat
            (((track detectEdge img i).2.1.get y (x * 2 + 0)).toNat * img.chans + c) := by
  intro y x hy hx
  have ht := track_tracked detectEdge hest img W H i (by omega) hwf hcols hrows
  have hp := tracked_pixel ht y x hy hx
  refine ⟨hp, ?_⟩
  intro c hc
  obtain ⟨⟨_, _, _, a4⟩, ⟨_, _, _, b4⟩, _⟩ := ht
  have h1 := pixel_getD (track detectEdge img i).1 y x c (by rw [a4]; exact hc)
  rw [a4] at h1
  rw [← h1, hp, pixel_two _ _ _ b4]
  simp only [lookup, List.getD_cons_succ, List.getD_cons_zero]
  exact pixel_getD img _ _ c hc

/-- An instance of C7: after one tracking iteration on `twoPixels` with the
zero estimator, the working image holds at `(0, 0)` the original pixel at
column 1. -/
theorem track_lockstep_witness :
    IsEstimator flatEnergy ∧ twoPixels.WF ∧
    (track flatEnergy twoPixels 1).2.1.pixel 0 0 = [1, 0] ∧
    (track flatEnergy twoPixels 1).1.pixel 0 0 = [4, 5, 6] :=
  ⟨flatEnergy_isEstimator, by decide, by decide,
   ((track_lockstep flatEnergy twoPixels 2 1 1 1 flatEnergy_isEstimator (by decide) rfl rfl
      (by decide) (by decide) 0 0 (by decide) (by decide)).1).trans (by decide)⟩

/-! ## The removable mask -/

theorem setI_get {m : Mat} (hwf : m.WF) (yy xx v : Int) (y x : Nat) (hy : y < m.rows)
    (hx : x < m.cols * m.chans) :
    (m.setI yy xx v).get y x = if yy = (y : Int) ∧ xx = (x : Int) then v else m.get y x := by
  unfold Mat.setI
  by_cases hneg : yy < 0 ∨ xx < 0
  · rw [if_pos hneg, if_neg (by omega)]
  · rw [if_neg hneg]
    by_cases h : yy = (y : Int) ∧ xx = (x : Int)
    · obtain ⟨rfl, rfl⟩ := h
      simp [Mat.get_set_same hwf v hy hx]
    · rw [if_neg h, Mat.get_set_ne]
      by_cases h1 : y = yy.toNat
      · right
        intro h2
        apply h
        omega
      · exact Or.inl h1

theorem setI_shape (m : Mat) (yy xx v : Int) :
    (m.WF → (m.setI yy xx v).WF) ∧ (m.setI yy xx v).rows = m.rows ∧
    (m.setI yy xx v).cols = m.cols ∧ (m.setI yy xx v).chans = m.chans := by
  unfold Mat.setI
  split
  · exact ⟨id, rfl, rfl, rfl⟩
  · exact ⟨fun h => Mat.set_WF h _ _ _, rfl, rfl, rfl⟩

theorem get_alloc_one (rows cols : Nat) (y x : Nat) (hy : y < rows) (hx : x < cols) :
    (Mat.alloc rows cols 1 1).get y x = 1 := by
  simp [Mat.get, Mat.alloc, List.getD_eq_getElem?_getD, List.getElem?_replicate, hy, hx]

theorem removableMask_spec (img idx : Mat) :
    (removableMask img idx).WF ∧ (removableMask img idx).rows = img.rows ∧
    (removableMask img idx).cols = img.cols ∧ (removableMask img idx).chans = 1 ∧
    ∀ y x, y < img.rows → x < img.cols →
      (Marked idx idx.rows 0 y x → (removableMask img idx).get y x = 0) ∧
      (¬ Marked idx idx.rows 0 y x → (removableMask img idx).get y x = 1) := by
  unfold removableMask
  apply foldl_range_inv
    (fun m (t : Mat) => t.WF ∧ t.rows = img.rows ∧ t.cols = img.cols ∧ t.chans = 1 ∧
      ∀ y x, y < img.rows → x < img.cols →
        (Marked idx m 0 y x → t.get y x = 0) ∧ (¬ Marked idx m 0 y x → t.get y x = 1))
  · refine ⟨Mat.alloc_WF _ _ _ _, rfl, rfl, rfl, ?_⟩
    intro y x hy hx
    refine ⟨?_, fun _ => get_alloc_one _ _ _ _ hy hx⟩
    rintro ⟨y1, x1, h, _⟩
    omega
  · intro m t hm ht
    have row := foldl_range_inv
      (fun n (u : Mat) => u.WF ∧ u.rows = img.rows ∧ u.cols = img.cols ∧ u.chans = 1 ∧
        ∀ y x, y < img.rows → x < img.cols →
          (Marked idx m n y x → u.get y x = 0) ∧ (¬ Marked idx m n y x → u.get y x = 1))
      (fun (seams : Mat) x =>
        seams.setI (idx.get m (x * 2 + 1)) (idx.get m (x * 2 + 0)) 0)
      idx.cols t ht
      (by
        intro n u hn ⟨u1, u2, u3, u4, u5⟩
        obtain ⟨s1, s2, s3, s4⟩ := setI_shape u (idx.get m (n * 2 + 1)) (idx.get m (n * 2 + 0)) 0
        refine ⟨s1 u1, s2.trans u2, s3.trans u3, s4.trans u4, ?_⟩
        intro y x hy hx
        rw [setI_get u1 _ _ _ y x (by omega) (by rw [u3, u4]; omega)]
        by_cases hit : idx.get m (n * 2 + 1) = (y : Int) ∧ idx.get m (n * 2 + 0) = (x : Int)
        · rw [if_pos hit]
          refine ⟨fun _ => rfl, fun hnot => ?_⟩
          exact absurd ⟨m, n, Or.inr ⟨rfl, by omega⟩, hn, hit.2, hit.1⟩ hnot
        · rw [if_neg hit]
          constructor
          · rintro ⟨y1, x1, hpos, hx1, e1, e2⟩
            apply (u5 y x hy hx).1
            refine ⟨y1, x1, ?_, hx1, e1, e2⟩
            rcases hpos with h | ⟨h1, h2⟩
            · exact Or.inl h
            · by_cases hxn : x1 = n
              · subst hxn; subst h1
                exact absurd ⟨e2, e1⟩ hit
              · exact Or.inr ⟨h1, by omega⟩
          · intro hnot
            apply (u5 y x hy hx).2
            rintro ⟨y1, x1, hpos, hx1, e1, e2⟩
            apply hnot
            refine ⟨y1, x1, ?_, hx1, e1, e2⟩
            rcases hpos with h | ⟨h1, h2⟩
            · exact Or.inl h
            · exact Or.inr ⟨h1, by omega⟩)
    obtain ⟨r1, r2, r3, r4, r5⟩ := row
    refine ⟨r1, r2, r3, r4, ?_⟩
    intro y x hy hx
    have hiff : Marked idx (m + 1) 0 y x ↔ Marked idx m idx.cols y x := by
      constructor
      · rintro ⟨y1, x1, hpos, hx1, e1, e2⟩
        refine ⟨y1, x1, ?_, hx1, e1, e2⟩
        rcases hpos with h | ⟨_, h2⟩
        · by_cases hy1 : y1 = m
          · exact Or.inr ⟨hy1, hx1⟩
          · exact Or.inl (by omega)
        · omega
      · rintro ⟨y1, x1, hpos, hx1, e1, e2⟩
        refine ⟨y1, x1, ?_, hx1, e1, e2⟩
        rcases hpos with h | ⟨h1, _⟩
        · exact Or.inl (by omega)
        · exact Or.inl (by omega)
    rw [hiff]
    exact r5 y x hy hx

theorem filter_mem_of_sublist {α : Type} [DecidableEq α] {L M : List α} (h : L.Sublist M)
    (hM : M.Nodup) : M.filter (fun a => decide (a ∈ L)) = L := by
  induction h with
  | slnil => rfl
  | @cons l1 l2 a hs ih =>
    rw [List.nodup_cons] at hM
    have : a ∉ l1 := fun ha => hM.1 (hs.subset ha)
    rw [List.filter_cons_of_neg (by simpa using this)]
    exact ih hM.2
  | @cons₂ l1 l2 a hs ih =>
    rw [List.nodup_cons] at hM
    rw [List.filter_cons_of_pos (by simp)]
    congr 1
    rw [← ih hM.2]
    apply List.filter_congr
    intro b hb
    have hne : b ≠ a := fun h => hM.1 (h ▸ hb)
    simp [hne, ih hM.2]

theorem countP_not_mem_of_sublist {α : Type} [DecidableEq α] {L M : List α} (h : L.Sublist M)
    (hM : M.Nodup) : M.countP (fun a => decide (a ∉ L)) = M.length - L.length := by
  have h1 := List.length_eq_countP_add_countP (p := fun a => decide (a ∈ L)) M
  rw [List.countP_eq_length_filter (p := fun a => decide (a ∈ L)), filter_mem_of_sublist h hM] at h1
  have : M.countP (fun a => decide (a ∉ L)) = M.countP (fun a => decide ¬(decide (a ∈ L) = true)) := by
    apply List.countP_congr
    intro a _
    simp
  rw [this]
  omega

theorem marked_iff {idx : Mat} {W H k : Nat} (b2 : idx.rows = H) (b3 : idx.cols = W - k)
    (b4 : idx.chans = 2) (y x : Nat) :
    Marked idx idx.rows 0 y x ↔
      ∃ y1 x1, y1 < H ∧ x1 < W - k ∧ idx.pixel y1 x1 = [(x : Int), (y : Int)] := by
  constructor
  · rintro ⟨y1, x1, hpos, hx1, e1, e2⟩
    refine ⟨y1, x1, by omega, by omega, ?_⟩
    rw [pixel_two _ _ _ b4, e1, e2]
  · rintro ⟨y1, x1, hy1, hx1, e⟩
    rw [pixel_two _ _ _ b4] at e
    simp only [List.cons.injEq, and_true] at e
    exact ⟨y1, x1, Or.inl (by omega), by omega, e.1, e.2⟩

theorem tracked_mem_row {img : Mat} {W H k : Nat} {st : Mat × Mat × List Int}
    (h : Tracked img W H k st) (y x : Nat) (hy : y < H) :
    (∃ y1 x1, y1 < H ∧ x1 < W - k ∧ st.2.1.pixel y1 x1 = [(x : Int), (y : Int)]) ↔
      [(x : Int), (y : Int)] ∈ st.2.1.pixelRow y := by
  obtain ⟨_, ⟨_, _, b3, _⟩, hrow⟩ := h
  constructor
  · rintro ⟨y1, x1, hy1, hx1, e⟩
    have hmem : st.2.1.pixel y1 x1 ∈ st.2.1.pixelRow y1 := by
      unfold Mat.pixelRow
      exact List.mem_map.mpr ⟨x1, List.mem_range.mpr (by omega), rfl⟩
    have hc := (hrow y1 hy1).1.subset hmem
    rw [e] at hc hmem
    simp only [coordRow, List.mem_map, List.mem_range, List.cons.injEq, Nat.cast_inj,
      and_true] at hc
    obtain ⟨_, _, _, hyy⟩ := hc
    subst hyy
    exact hmem
  · intro hmem
    unfold Mat.pixelRow at hmem
    obtain ⟨x1, hx1, e⟩ := List.mem_map.mp hmem
    exact ⟨y, x1, hy, by rw [← b3]; exact List.mem_range.mp hx1, e⟩

/-- The mask built from a tracked coordinate-index image holds `1` at the
coordinates that the image does not store and `0` at the stored ones. -/
theorem mask_get_of_tracked {img : Mat} {W H k : Nat} {st : Mat × Mat × List Int}
    (ht : Tracked img W H k st) (hcols : img.cols = W) (hrows : img.rows = H)
    (y x : Nat) (hy : y < H) (hx : x < W) :
    ((removableMask img st.2.1).get y x = 1 ↔
      ¬ ∃ y1 x1, y1 < H ∧ x1 < W - k ∧ st.2.1.pixel y1 x1 = [(x : Int), (y : Int)]) ∧
    ((removableMask img st.2.1).get y x = 0 ↔
      ∃ y1 x1, y1 < H ∧ x1 < W - k ∧ st.2.1.pixel y1 x1 = [(x : Int), (y : Int)]) := by
  obtain ⟨_, _, _, _, hspec⟩ := removableMask_spec img st.2.1
  obtain ⟨p0, p1⟩ := hspec y x (by omega) (by omega)
  rw [← marked_iff ht.2.1.2.1 ht.2.1.2.2.1 ht.2.1.2.2.2 y x]
  by_cases hmk : Marked st.2.1 st.2.1.rows 0 y x
  · have := p0 hmk
    constructor
    · constructor
      · intro h1; omega
      · intro h1; exact absurd hmk h1
    · exact ⟨fun _ => hmk, fun _ => this⟩
  · have := p1 hmk
    constructor
    · exact ⟨fun _ => hmk, fun _ => this⟩
    · constructor
      · intro h0; omega
      · intro h; exact absurd h hmk

/-- The mask built from a tracked coordinate-index image after `k <= W`
iterations has exactly `k` flags in every row. -/
theorem mask_flagCount_of_tracked {img : Mat} {W H k : Nat} {st : Mat × Mat × List Int}
    (ht : Tracked img W H k st) (hcols : img.cols = W) (hrows : img.rows = H) (hk : k ≤ W)
    (y : Nat) (hy : y < H) :
    flagCount (removableMask img st.2.1) y W = k := by
  have hsub := (ht.2.2 y hy).1
  have hlen : (st.2.1.pixelRow y).length = W - k := by
    rw [Mat.pixelRow_length, ht.2.1.2.2.1]
  have hcount := countP_not_mem_of_sublist hsub (coordRow_nodup W y)
  have hcl : (coordRow W y).length = W := by simp [coordRow]
  rw [hcl, hlen] at hcount
  unfold flagCount
  have hcongr : (List.range W).countP
      (fun x => decide ((removableMask img st.2.1).get y x = 1)) =
      (List.range W).countP
        ((fun a => decide (a ∉ st.2.1.pixelRow y)) ∘
          (fun (x : Nat) => [(x : Int), (y : Int)])) := by
    apply List.countP_congr
    intro x hx
    have h1 := (mask_get_of_tracked ht hcols hrows y x hy (List.mem_range.mp hx)).1
    rw [tracked_mem_row ht y x hy] at h1
    simp only [Function.comp, decide_eq_true_eq]
    exact h1
  rw [hcongr, ← List.countP_map]
  have : List.map (fun (x : Nat) => [(x : Int), (y : Int)]) (List.range W) = coordRow W y := rfl
  rw [this]
  refine Eq.trans ?_ (hcount.trans (by omega))
  apply List.countP_congr
  intro a _
  simp

/-- C8. Removable mask: after `k < W` tracking iterations the mask holds `1`
at an original coordinate `(y, x)` exactly when `(x, y)` does not occur in the
final coordinate-index image, and `0` exactly when it occurs; every row of the
mask has exactly `k` flags. -/
theorem removableMask_complement (detectEdge : Mat → Mat) (img : Mat) (W H k : Nat)
    (hest : IsEstimator detectEdge) (hwf : img.WF) (hcols : img.cols = W) (hrows : img.rows = H)
    (hk : k < W) :
    ∀ y, y < H →
      (∀ x, x < W →
        ((removableMask img (track detectEdge img k).2.1).get y x = 1 ↔
          ¬ ∃ y1 x1, y1 < H ∧ x1 < W - k ∧
            (track detectEdge img k).2.1.pixel y1 x1 = [(x : Int), (y : Int)]) ∧
        ((removableMask img (track detectEdge img k).2.1).get y x = 0 ↔
          ∃ y1 x1, y1 < H ∧ x1 < W - k ∧
            (track detectEdge img k).2.1.pixel y1 x1 = [(x : Int), (y : Int)])) ∧
      flagCount (removableMask img (track detectEdge img k).2.1) y W = k := by
  intro y hy
  have ht := track_tracked detectEdge hest img W H k (by omega) hwf hcols hrows
  constructor
  · intro x hx
    exact mask_get_of_tracked ht hcols hrows y x hy hx
  · exact mask_flagCount_of_tracked ht hcols hrows (by omega) y hy

/-- An instance of C8: the mask of `twoPixels` after one tracking iteration
with the zero estimator flags the original column 0. -/
theorem removableMask_complement_witness :
    IsEstimator flatEnergy ∧ twoPixels.WF ∧
    removableMask twoPixels (track flatEnergy twoPixels 1).2.1 = ⟨1, 2, 1, [[1, 0]]⟩ ∧
    flagCount (removableMask twoPixels (track flatEnergy twoPixels 1).2.1) 0 2 = 1 :=
  ⟨flatEnergy_isEstimator, by decide, by decide,
   ((removableMask_complement flatEnergy twoPixels 2 1 1 flatEnergy_isEstimator (by decide)
      rfl rfl (by decide)) 0 (by decide)).2⟩

/-! ## Width arithmetic of the two branches -/

theorem shrink_shape (detectEdge : Mat → Mat) (img : Mat) (k : Nat) (hwf : img.WF) :
    (shrink detectEdge img k).WF ∧ (shrink detectEdge img k).rows = img.rows ∧
    (shrink detectEdge img k).cols = img.cols - k ∧
    (shrink detectEdge img k).chans = img.chans := by
  apply foldl_range_inv
    (fun i (st : Mat × List Int) =>
      st.1.WF ∧ st.1.rows = img.rows ∧ st.1.cols = img.cols - i ∧ st.1.chans = img.chans)
    (fun st _ => shrinkStep detectEdge st) k (img, [])
  · exact ⟨hwf, rfl, rfl, rfl⟩
  · intro i st _ ⟨_, h2, h3, h4⟩
    obtain ⟨c1, c2, c3, c4, _⟩ := carveSeam_spec st.1 (computeSeam (detectEdge st.1) st.2)
    exact ⟨c1, c2.trans h2, c3.trans (by rw [h3]; omega), c4.trans h4⟩

/-- C9. Shrink width arithmetic: on an image of width `W` and height `H`, for
any energy estimator and any `k < W`, the shrink loop run `k` times yields an
image of width `W - k` (so that `width + k = W`) and height `H`, with the
channel count of the input, every row holding `W - k` pixels. -/
theorem shrink_width (detectEdge : Mat → Mat) (img : Mat) (W H k : Nat)
    (hwf : img.WF) (hcols : img.cols = W) (hrows : img.rows = H) (hk : k < W) :
    (shrink detectEdge img k).cols = W - k ∧ (shrink detectEdge img k).cols + k = W ∧
    (shrink detectEdge img k).rows = H ∧
    (shrink detectEdge img k).chans = img.chans ∧ (shrink detectEdge img k).WF ∧
    ∀ y, y < H → ((shrink detectEdge img k).pixelRow y).length = W - k := by
  obtain ⟨k1, k2, k3, k4⟩ := shrink_shape detectEdge img k hwf
  subst hcols hrows
  refine ⟨k3, by omega, k2, k4, k1, ?_⟩
  intro y _
  rw [Mat.pixelRow_length]
  exact k3

/-- An instance of C9: one shrink iteration on `twoPixels` with the zero
estimator. -/
theorem shrink_width_witness :
    twoPixels.WF ∧ twoPixels.cols = 2 ∧ twoPixels.rows = 1 ∧
    (shrink flatEnergy twoPixels 1).cols = 2 - 1 :=
  ⟨by decide, rfl, rfl,
   (shrink_width flatEnergy twoPixels 2 1 1 (by decide) rfl rfl (by decide)).1⟩

/-- C10. Enlarge width arithmetic: on an image of width `W` and height `H`,
for any `k < W`, the whole enlarge run (tracking loop, mask, one insertion
pass) yields an image of width `W + k` and height `H`, every row holding
`W + k` pixels. -/
theorem enlargeRun_width (detectEdge : Mat → Mat) (img : Mat) (W H k : Nat)
    (hcols : img.cols = W) (hrows : img.rows = H) (hk : k < W) :
    (enlargeRun detectEdge img k).cols = W + k ∧ (enlargeRun detectEdge img k).rows = H ∧
    (enlargeRun detectEdge img k).WF ∧
    ∀ y, y < H → ((enlargeRun detectEdge img k).pixelRow y).length = W + k := by
  have _ := hk
  obtain ⟨h1, h2, h3, _⟩ :=
    enlarge_shape img (removableMask img (track detectEdge img k).2.1) k
  subst hcols hrows
  refine ⟨h3, h2, h1, ?_⟩
  intro y _
  rw [Mat.pixelRow_length]
  exact h3

/-- An instance of C10: `twoPixels` enlarged by one column with the zero
estimator. -/
theorem enlargeRun_width_witness :
    twoPixels.cols = 2 ∧ twoPixels.rows = 1 ∧
    (enlargeRun flatEnergy twoPixels 1).cols = 2 + 1 ∧
    (enlargeRun flatEnergy twoPixels 1).pixelRow 0 = [[1, 2, 3], [1, 2, 3], [4, 5, 6]] :=
  ⟨rfl, rfl,
   (enlargeRun_width flatEnergy twoPixels 2 1 1 rfl rfl (by decide)).1, by decide⟩

/-- The rows of the whole enlarge run: each is the source row with the
pixels that the tracking loop removed doubled. -/
theorem enlargeRun_pixelRow (detectEdge : Mat → Mat) (img : Mat) (W H k : Nat)
    (hest : IsEstimator detectEdge) (hwf : img.WF) (hcols : img.cols = W) (hrows : img.rows = H)
    (hch : img.chans = 3) (hk : k < W) (y : Nat) (hy : y < H) :
    (enlargeRun detectEdge img k).pixelRow y =
      dupRow img (removableMask img (track detectEdge img k).2.1) y W := by
  have ht := track_tracked detectEdge hest img W H k (by omega) hwf hcols hrows
  have hmask := fun y1 hy1 => mask_flagCount_of_tracked ht hcols hrows (by omega) y1 hy1
  subst hcols hrows
  exact enlarge_pixelRow img _ k hch hmask y hy

/-! ## The recurrence of `computeSeam` -/

theorem tables_get {e : Mat} {W H : Nat} (hE : IsEnergy e W H) (hH : 1 ≤ H) (y x : Nat)
    (hy : y < H) (hx : x < W) :
    (tables e).2.get y x = dirOf e y x ∧ (tables e).1.get y x = costOf e y x := by
  obtain ⟨_, _, _, _, h5⟩ := tables_filled hE hH
  have hcols : e.cols = W := hE.2.2.1
  have hrows : e.rows = H := hE.2.1
  exact h5 y x (by omega) (Or.inl (by omega))

/-- The offset stored at `(y, x)`, `y >= 1`, leads to a least energy of the
row above among the in-bounds offsets, and to the first such offset. -/
theorem dirOf_min {e : Mat} {W H : Nat} (hE : IsEnergy e W H) (y x : Nat) (hx : x < W)
    (d : Int) (hd : d = -1 ∨ d = 0 ∨ d = 1) (hd0 : 0 ≤ (x : Int) + d)
    (hdW : (x : Int) + d < W) :
    e.getI y ((x : Int) + dirOf e (y + 1) x) ≤ e.getI y ((x : Int) + d) ∧
    (d < dirOf e (y + 1) x →
      e.getI y ((x : Int) + dirOf e (y + 1) x) < e.getI y ((x : Int) + d)) := by
  have hcols : e.cols = W := hE.2.2.1
  rw [dirOf_succ]
  obtain ⟨_, _, _, h4⟩ := pickStep_spec e (y + 1) x (show x < e.cols by omega)
    (fun j => (hE.getI_bounds _ j).2)
  exact h4 d hd hd0 (by omega)

/-- C15. The recurrence of the tables of `computeSeam`: row 0 holds
`cost[0][x] = energy[0][x]` and `dir[0][x] = 0`; for `y >= 1`, `dir[y][x]` is
an offset in `-1, 0, +1` that stays in the row, whose energy in row `y - 1` is
least among the in-bounds offsets and which is the first such offset in the
order `-1, 0, +1`, and `cost[y][x] = cost[y-1][x + dir[y][x]]`. -/
theorem tables_recurrence (e : Mat) (W H : Nat) (hW : 1 ≤ W) (hH : 1 ≤ H)
    (hE : IsEnergy e W H) :
    (∀ x, x < W → (tables e).1.get 0 x = e.get 0 x ∧ (tables e).2.get 0 x = 0) ∧
    ∀ y x, 1 ≤ y → y < H → x < W →
      ((tables e).2.get y x = -1 ∨ (tables e).2.get y x = 0 ∨ (tables e).2.get y x = 1) ∧
      0 ≤ (x : Int) + (tables e).2.get y x ∧ (x : Int) + (tables e).2.get y x < W ∧
      (∀ d : Int, (d = -1 ∨ d = 0 ∨ d = 1) → 0 ≤ (x : Int) + d → (x : Int) + d < W →
        e.getI (y - 1) ((x : Int) + (tables e).2.get y x) ≤ e.getI (y - 1) ((x : Int) + d) ∧
        (d < (tables e).2.get y x →
          e.getI (y - 1) ((x : Int) + (tables e).2.get y x) < e.getI (y - 1) ((x : Int) + d))) ∧
      (tables e).1.get y x = (tables e).1.getI (y - 1) ((x : Int) + (tables e).2.get y x) := by
  have _ := hW
  constructor
  · intro x hx
    obtain ⟨h1, h2⟩ := tables_get hE hH 0 x (by omega) hx
    rw [h1, h2]
    exact ⟨rfl, rfl⟩
  · intro y x hy1 hy hx
    obtain ⟨y0, rfl⟩ : ∃ y0, y = y0 + 1 := ⟨y - 1, by omega⟩
    obtain ⟨h1, h2⟩ := tables_get hE hH (y0 + 1) x hy hx
    obtain ⟨v1, v2, v3⟩ := dirOf_valid hE (y0 + 1) x hx
    rw [h1, h2, Nat.add_sub_cancel]
    refine ⟨v1, v2, v3, fun d hd hd0 hdW => dirOf_min hE y0 x hx d hd hd0 hdW, ?_⟩
    rw [Mat.getI_of_nonneg _ _ v2,
      (tables_get hE hH y0 _ (by omega) (show ((x : Int) + dirOf e (y0 + 1) x).toNat < W by
        omega)).2]
    rfl

/-- An instance of C15 on `sampleEnergy`. -/
theorem tables_recurrence_witness :
    IsEnergy sampleEnergy 3 3 ∧
    (∀ x, x < 3 →
      (tables sampleEnergy).1.get 0 x = sampleEnergy.get 0 x ∧
      (tables sampleEnergy).2.get 0 x = 0) :=
  ⟨by decide, (tables_recurrence sampleEnergy 3 3 (by decide) (by decide) (by decide)).1⟩

theorem costOf_bounds {e : Mat} {W H : Nat} (hE : IsEnergy e W H) (y x : Nat) :
    0 ≤ costOf e y x ∧ costOf e y x ≤ 255 := by
  induction y generalizing x with
  | zero => exact hE.get_bounds 0 x
  | succ y ih => exact ih _

/-- The scan of the last row returns the least entry of the row and the
lowest column that holds it. -/
theorem pickBottom_spec (table : Mat) (width height : Nat) (hW : 1 ≤ width)
    (hb : ∀ x, x < width → table.get (height - 1) x < INT_MAX) :
    0 ≤ (pickBottom table width height).2 ∧ (pickBottom table width height).2 < width ∧
    (pickBottom table width height).1 =
      table.get (height - 1) (pickBottom table width height).2.toNat ∧
    (∀ x, x < width → (pickBottom table width height).1 ≤ table.get (height - 1) x) ∧
    ∀ x : Nat, (x : Int) < (pickBottom table width height).2 →
      (pickBottom table width height).1 < table.get (height - 1) x := by
  have key := foldl_range_inv
    (fun n (st : Int × Int) =>
      (n = 0 ∧ st = (INT_MAX, 0)) ∨
      (1 ≤ n ∧ 0 ≤ st.2 ∧ st.2 < n ∧ st.1 = table.get (height - 1) st.2.toNat ∧
        (∀ x, x < n → st.1 ≤ table.get (height - 1) x) ∧
        ∀ x : Nat, (x : Int) < st.2 → st.1 < table.get (height - 1) x))
    (fun (st : Int × Int) (x : Nat) =>
      if st.1 > table.get (height - 1) x then (table.get (height - 1) x, (x : Int)) else st)
    width (INT_MAX, 0) (Or.inl ⟨rfl, rfl⟩)
    (by
      intro n st hn h
      right
      rcases h with ⟨h0, hst⟩ | ⟨h1, c0, cn, hv, hmin, hfirst⟩
      · subst h0
        subst hst
        have := hb 0 hn
        simp only [gt_iff_lt, this, if_true]
        refine ⟨by omega, by simp, by simp, by simp, ?_, ?_⟩
        · intro x hx
          have : x = 0 := by omega
          subst this
          exact le_refl _
        · intro x hx
          simp only [CharP.cast_eq_zero] at hx
          omega
      · by_cases hlt : st.1 > table.get (height - 1) n
        · simp only [hlt, if_true]
          refine ⟨by omega, by omega, by push_cast; omega, by simp, ?_, ?_⟩
          · intro x hx
            by_cases hxn : x = n
            · subst hxn; exact le_refl _
            · have := hmin x (by omega)
              omega
          · intro x hx
            have := hmin x (by omega)
            omega
        · simp only [hlt, if_false]
          refine ⟨by omega, c0, by push_cast; omega, hv, ?_, hfirst⟩
          intro x hx
          by_cases hxn : x = n
          · subst hxn; omega
          · exact hmin x (by omega))
  simp only at key
  unfold pickBottom
  rcases key with ⟨h0, _⟩ | ⟨_, c0, cn, hv, hmin, hfirst⟩
  · omega
  · exact ⟨c0, cn, hv, hmin, hfirst⟩

/-- C16. Bottom endpoint: `seam[H-1]` is the lowest column at which the last
row of the cost table attains its minimum. -/
theorem computeSeam_bottom_endpoint (e : Mat) (W H : Nat) (seam0 : List Int)
    (hW : 1 ≤ W) (hH : 1 ≤ H) (hE : IsEnergy e W H) :
    0 ≤ (computeSeam e seam0).getD (H - 1) 0 ∧ (computeSeam e seam0).getD (H - 1) 0 < W ∧
    (∀ x, x < W →
      (tables e).1.get (H - 1) ((computeSeam e seam0).getD (H - 1) 0).toNat ≤
        (tables e).1.get (H - 1) x) ∧
    ∀ x : Nat, (x : Int) < (computeSeam e seam0).getD (H - 1) 0 →
      (tables e).1.get (H - 1) x >
        (tables e).1.get (H - 1) ((computeSeam e seam0).getD (H - 1) 0).toNat := by
  have hcols : e.cols = W := hE.2.2.1
  have hrows : e.rows = H := hE.2.1
  have hb : ∀ x, x < W → (tables e).1.get (H - 1) x < INT_MAX := by
    intro x hx
    rw [(tables_get hE hH (H - 1) x (by omega) hx).2]
    have := (costOf_bounds hE (H - 1) x).2
    unfold INT_MAX
    omega
  obtain ⟨p1, p2, p3, p4, p5⟩ := pickBottom_spec (tables e).1 W H hW hb
  have hs : (computeSeam e seam0).getD (H - 1) 0 = (pickBottom (tables e).1 W H).2 := by
    rw [← hrows, computeSeam_bottom e seam0 (by omega), hcols]
  rw [hs, ← p3]
  exact ⟨p1, p2, p4, p5⟩

/-- An instance of C16 on `sampleEnergy`. -/
theorem computeSeam_bottom_endpoint_witness :
    IsEnergy sampleEnergy 3 3 ∧
    0 ≤ (computeSeam sampleEnergy []).getD (3 - 1) 0 ∧
    (computeSeam sampleEnergy []).getD (3 - 1) 0 < (3 : Nat) :=
  ⟨by decide,
   (computeSeam_bottom_endpoint sampleEnergy 3 3 [] (by decide) (by decide) (by decide)).1,
   (computeSeam_bottom_endpoint sampleEnergy 3 3 [] (by decide) (by decide) (by decide)).2.1⟩

/-- C17. Backtrack step: for `1 <= y <= H - 1` the seam satisfies
`seam[y-1] = seam[y] + dir[y][seam[y]]`, and `seam[y-1]` is a least-energy
in-bounds neighbour of `seam[y]` in the row above. -/
theorem computeSeam_backtrack_step (e : Mat) (W H : Nat) (seam0 : List Int)
    (hW : 1 ≤ W) (hH : 2 ≤ H) (hE : IsEnergy e W H) :
    ∀ y, 1 ≤ y → y ≤ H - 1 →
      (computeSeam e seam0).getD (y - 1) 0 =
        (computeSeam e seam0).getD y 0 + (tables e).2.getI y ((computeSeam e seam0).getD y 0) ∧
      ∀ d : Int, (d = -1 ∨ d = 0 ∨ d = 1) → 0 ≤ (computeSeam e seam0).getD y 0 + d →
        (computeSeam e seam0).getD y 0 + d < W →
        e.getI (y - 1) ((computeSeam e seam0).getD (y - 1) 0) ≤
          e.getI (y - 1) ((computeSeam e seam0).getD y 0 + d) := by
  intro y hy1 hy
  obtain ⟨y0, rfl⟩ : ∃ y0, y = y0 + 1 := ⟨y - 1, by omega⟩
  have hrows : e.rows = H := hE.2.1
  have hr := computeSeam_range hE hW (by omega) seam0 (y0 + 1) (by omega)
  have hstep := computeSeam_step_dir hE hW (by omega) seam0 y0 (by omega)
  rw [Nat.add_sub_cancel]
  constructor
  · rw [prev_getI hE (by omega) _ _ (by omega) hr.1 hr.2]
    exact hstep
  · intro d hd hd0 hdW
    have hmin := dirOf_min hE y0 ((computeSeam e seam0).getD (y0 + 1) 0).toNat (by omega) d hd
      (by rw [Int.toNat_of_nonneg hr.1]; exact hd0)
      (by rw [Int.toNat_of_nonneg hr.1]; exact hdW)
    rw [Int.toNat_of_nonneg hr.1] at hmin
    rw [hstep]
    exact hmin.1

/-- An instance of C17 on `sampleEnergy`: the step from row 2 to row 1. -/
theorem computeSeam_backtrack_step_witness :
    IsEnergy sampleEnergy 3 3 ∧
    (computeSeam sampleEnergy []).getD (2 - 1) 0 =
      (computeSeam sampleEnergy []).getD 2 0 +
        (tables sampleEnergy).2.getI 2 ((computeSeam sampleEnergy []).getD 2 0) :=
  ⟨by decide,
   ((computeSeam_backtrack_step sampleEnergy 3 3 [] (by decide) (by decide) (by decide)) 2
      (by decide) (by decide)).1⟩

theorem climb_range {e : Mat} {W H : Nat} (hE : IsEnergy e W H) (hH : 1 ≤ H) (y : Nat)
    (c : Int) (hy : y < H) (hc0 : 0 ≤ c) (hcW : c < W) :
    0 ≤ climb (tables e).2 y c ∧ climb (tables e).2 y c < W := by
  induction y generalizing c with
  | zero => exact ⟨hc0, hcW⟩
  | succ y ih =>
    simp only [climb]
    rw [prev_getI hE hH _ _ hy hc0 hcW]
    have hv := dirOf_valid hE (y + 1) c.toNat (by omega)
    rw [Int.toNat_of_nonneg hc0] at hv
    exact ih _ (by omega) hv.2.1 hv.2.2

/-- Every entry of the cost table is the energy of the row-0 cell that the
offsets of `prev` lead to. -/
theorem table_eq_row0 {e : Mat} {W H : Nat} (hE : IsEnergy e W H) (hH : 1 ≤ H) (y x : Nat)
    (hy : y < H) (hx : x < W) :
    (tables e).1.get y x = e.get 0 (climb (tables e).2 y (x : Int)).toNat := by
  induction y generalizing x with
  | zero =>
    rw [(tables_get hE hH 0 x hy hx).2]
    simp [climb, costOf]
  | succ y ih =>
    obtain ⟨v1, v2, v3⟩ := dirOf_valid hE (y + 1) x hx
    rw [(tables_get hE hH (y + 1) x hy hx).2]
    simp only [climb, costOf]
    rw [prev_getI hE hH _ _ hy (by omega) (by omega)]
    simp only [Int.toNat_ofNat]
    have hlt : ((x : Int) + dirOf e (y + 1) x).toNat < W := by omega
    rw [← (tables_get hE hH y _ (by omega) hlt).2, ih _ (by omega) hlt,
      Int.toNat_of_nonneg v2]

theorem climb_seam (e : Mat) (seam0 : List Int) (y : Nat) (hy : y < e.rows) :
    climb (tables e).2 y ((computeSeam e seam0).getD y 0) = (computeSeam e seam0).getD 0 0 := by
  induction y with
  | zero => rfl
  | succ y ih =>
    simp only [climb]
    rw [← computeSeam_step e seam0 y (by omega)]
    exact ih (by omega)

/-- C18. The cost table carries only row-0 energy: `cost[y][x]` is
`energy[0][x0]` for the row-0 column `x0` reached from `(y, x)` by following
`dir` upward, so no energy of a row `y >= 1` enters a cost; in particular
`cost[H-1][seam[H-1]] = energy[0][seam[0]]`. -/
theorem table_carries_row0 (e : Mat) (W H : Nat) (seam0 : List Int)
    (hW : 1 ≤ W) (hH : 1 ≤ H) (hE : IsEnergy e W H) :
    (∀ y x, y < H → x < W →
      0 ≤ climb (tables e).2 y (x : Int) ∧ climb (tables e).2 y (x : Int) < W ∧
      (tables e).1.get y x = e.get 0 (climb (tables e).2 y (x : Int)).toNat) ∧
    climb (tables e).2 (H - 1) ((computeSeam e seam0).getD (H - 1) 0) =
      (computeSeam e seam0).getD 0 0 ∧
    (tables e).1.get (H - 1) ((computeSeam e seam0).getD (H - 1) 0).toNat =
      e.get 0 ((computeSeam e seam0).getD 0 0).toNat := by
  have hrows : e.rows = H := hE.2.1
  refine ⟨?_, climb_seam e seam0 (H - 1) (by omega), ?_⟩
  · intro y x hy hx
    obtain ⟨c1, c2⟩ := climb_range hE hH y (x : Int) hy (by omega) (by omega)
    exact ⟨c1, c2, table_eq_row0 hE hH y x hy hx⟩
  · have hr := computeSeam_range hE hW hH seam0 (H - 1) (by omega)
    rw [table_eq_row0 hE hH (H - 1) _ (by omega) (show
      ((computeSeam e seam0).getD (H - 1) 0).toNat < W by omega),
      Int.toNat_of_nonneg hr.1, climb_seam e seam0 (H - 1) (by omega)]

/-- An instance of C18 on `diagEnergy`: the selected cost is the energy `0` of
the top of the seam, while the energies along the seam add up to `9`. -/
theorem table_carries_row0_witness :
    IsEnergy diagEnergy 2 2 ∧
    (tables diagEnergy).1.get (2 - 1) ((computeSeam diagEnergy []).getD (2 - 1) 0).toNat =
      diagEnergy.get 0 ((computeSeam diagEnergy []).getD 0 0).toNat ∧
    diagEnergy.get 0 ((computeSeam diagEnergy []).getD 0 0).toNat = 0 ∧
    seamEnergy diagEnergy (computeSeam diagEnergy []) = 9 :=
  ⟨by decide,
   (table_carries_row0 diagEnergy 2 2 [] (by decide) (by decide) (by decide)).2.2,
   by decide, by decide⟩

theorem pickStep_congr (e e2 : Mat) (width y x : Nat)
    (h : ∀ j : Nat, j < width → e.get (y - 1) j = e2.get (y - 1) j) :
    pickStep e width y x = pickStep e2 width y x := by
  unfold pickStep
  apply List.foldl_ext
  intro st dx _
  by_cases hc : (x : Int) + dx ≥ 0 ∧ (x : Int) + dx < (width : Int)
  · have hg : e.getI (y - 1) ((x : Int) + dx) = e2.getI (y - 1) ((x : Int) + dx) := by
      rw [Mat.getI_of_nonneg _ _ hc.1, Mat.getI_of_nonneg _ _ hc.1]
      exact h _ (by omega)
    simp only [hg]
  · simp only [hc, if_false]

theorem tables_congr (e e2 : Mat) (hrows : e2.rows = e.rows) (hcols : e2.cols = e.cols)
    (h : ∀ y j, y + 1 < e.rows → j < e.cols → e.get y j = e2.get y j) (hH : 2 ≤ e.rows) :
    tables e = tables e2 := by
  unfold tables
  simp only [hrows, hcols]
  have h0 : ∀ tp, fillRow0 e e.cols tp = fillRow0 e2 e.cols tp := by
    intro tp
    unfold fillRow0
    apply List.foldl_ext
    intro a x hx
    rw [h 0 x (by omega) (List.mem_range.mp hx)]
  rw [h0]
  unfold fillRows
  apply List.foldl_ext
  intro tp y hy
  rw [List.mem_range'_1] at hy
  apply List.foldl_ext
  intro tp2 x _
  have hp := pickStep_congr e e2 e.cols y x (fun j hj => h (y - 1) j (by omega) hj)
  simp only [fillCell, hp]

/-- C19. The energy of the bottom row is ignored: two energy maps of the same
dimensions, `H >= 2` rows high, that agree on the rows `0..H-2` make
`computeSeam` return the same seam. -/
theorem computeSeam_ignores_bottom_row (e e2 : Mat) (W H : Nat) (seam0 : List Int)
    (hH : 2 ≤ H) (hrows : e.rows = H) (hcols : e.cols = W) (hrows2 : e2.rows = H)
    (hcols2 : e2.cols = W) (h : ∀ y j, y + 1 < H → j < W → e.get y j = e2.get y j) :
    computeSeam e seam0 = computeSeam e2 seam0 := by
  subst hrows hcols
  unfold computeSeam
  simp only [hrows2, hcols2]
  rw [tables_congr e e2 hrows2 hcols2 h hH]

/-- An instance of C19: `diagEnergy` and `diagEnergy2` differ in the bottom
row only and give the same seam. -/
theorem computeSeam_ignores_bottom_row_witness :
    (∀ y j, y + 1 < 2 → j < 2 → diagEnergy.get y j = diagEnergy2.get y j) ∧
    diagEnergy.get 1 1 ≠ diagEnergy2.get 1 1 ∧
    computeSeam diagEnergy [] = computeSeam diagEnergy2 [] :=
  ⟨by
    intro y j hy _
    have : y = 0 := by omega
    subst this
    rfl,
   by decide,
   computeSeam_ignores_bottom_row diagEnergy diagEnergy2 2 2 [] (by decide) rfl rfl rfl rfl
    (by
      intro y j hy _
      have : y = 0 := by omega
      subst this
      rfl)⟩

/-! ## Seams through the first column -/

theorem climb_zero {e : Mat} {W H : Nat} (hE : IsEnergy e W H) (hW : 1 ≤ W) (hH : 1 ≤ H)
    (hdir : ∀ y, y < H → dirOf e y 0 = 0) (y : Nat) (hy : y < H) :
    climb (tables e).2 y 0 = 0 := by
  induction y with
  | zero => rfl
  | succ y ih =>
    simp only [climb]
    rw [prev_getI hE hH _ _ hy (le_refl 0) (by omega)]
    simp only [Int.toNat_zero, zero_add, hdir (y + 1) hy]
    exact ih (by omega)

/-- When the first column carries the least energy of row 0 and, in every
row above the last, an energy not above that of the second column, the seam
is the first column. -/
theorem seam_first_column {e : Mat} {W H : Nat} (hE : IsEnergy e W H) (hW : 1 ≤ W)
    (hH : 1 ≤ H) (h0 : ∀ x, x < W → e.get 0 0 ≤ e.get 0 x)
    (h1 : ∀ y, y + 1 < H → 1 < W → e.get y 0 ≤ e.get y 1) (seam0 : List Int) (y : Nat)
    (hy : y < H) : (computeSeam e seam0).getD y 0 = 0 := by
  have hcols : e.cols = W := hE.2.2.1
  have hrows : e.rows = H := hE.2.1
  have hdir : ∀ y, y < H → dirOf e y 0 = 0 := by
    intro y hy
    cases y with
    | zero => simp [dirOf]
    | succ y =>
      obtain ⟨v1, v2, v3⟩ := dirOf_valid hE (y + 1) 0 (by omega)
      rcases v1 with v | v | v
      · rw [v] at v2; simp at v2
      · exact v
      · exfalso
        rw [v] at v3
        have hmin := (dirOf_min hE y 0 (by omega) 0 (Or.inr (Or.inl rfl)) (by simp)
          (by simp; omega)).2 (by rw [v]; decide)
        rw [v] at hmin
        have hw : 1 < W := by
          simp only [CharP.cast_eq_zero, zero_add] at v3
          omega
        have := h1 y (by omega) hw
        simp only [CharP.cast_eq_zero, zero_add, add_zero] at hmin
        rw [show (1 : Int) = ((1 : Nat) : Int) by rfl, Mat.getI_natCast,
          show (0 : Int) = ((0 : Nat) : Int) by rfl, Mat.getI_natCast] at hmin
        omega
  have hbottom : (computeSeam e seam0).getD (H - 1) 0 = 0 := by
    have hb : ∀ x, x < W → (tables e).1.get (H - 1) x < INT_MAX := by
      intro x hx
      rw [(tables_get hE hH (H - 1) x (by omega) hx).2]
      have := (costOf_bounds hE (H - 1) x).2
      unfold INT_MAX
      omega
    obtain ⟨p1, p2, p3, _, p5⟩ := pickBottom_spec (tables e).1 W H hW hb
    rw [← hrows, computeSeam_bottom e seam0 (by omega), hcols, hrows]
    by_contra hne
    have hpos : ((0 : Nat) : Int) < (pickBottom (tables e).1 W H).2 := by
      simp only [CharP.cast_eq_zero]
      omega
    have hlt := p5 0 hpos
    rw [p3, table_eq_row0 hE hH (H - 1) 0 (by omega) (by omega),
      table_eq_row0 hE hH (H - 1) _ (by omega)
        (show (pickBottom (tables e).1 W H).2.toNat < W by omega)] at hlt
    simp only [CharP.cast_eq_zero] at hlt
    rw [climb_zero hE hW hH hdir (H - 1) (by omega)] at hlt
    have hc := climb_range hE hH (H - 1) ((pickBottom (tables e).1 W H).2.toNat : Int)
      (by omega) (by omega) (by omega)
    have := h0 (climb (tables e).2 (H - 1) ((pickBottom (tables e).1 W H).2.toNat : Int)).toNat
      (by omega)
    simp only [Int.toNat_zero] at hlt
    omega
  have main : ∀ k, k < H → (computeSeam e seam0).getD (H - 1 - k) 0 = 0 := by
    intro k
    induction k with
    | zero => intro _; exact hbottom
    | succ k ih =>
      intro hk
      have ih2 := ih (by omega)
      rw [show H - 1 - k = (H - 1 - (k + 1)) + 1 by omega] at ih2
      rw [computeSeam_step_dir hE hW hH seam0 (H - 1 - (k + 1)) (by omega), ih2]
      simp only [Int.toNat_zero, zero_add]
      exact hdir _ (by omega)
  have := main (H - 1 - y) (by omega)
  rwa [show H - 1 - (H - 1 - y) = y by omega] at this

theorem flat_seam_zero {e : Mat} {W H : Nat} (hE : IsEnergy e W H) (hW : 1 ≤ W) (hH : 1 ≤ H)
    (hflat : IsFlat e) (seam0 : List Int) (y : Nat) (hy : y < H) :
    (computeSeam e seam0).getD y 0 = 0 := by
  have hcols : e.cols = W := hE.2.2.1
  have hrows : e.rows = H := hE.2.1
  apply seam_first_column hE hW hH _ _ seam0 y hy
  · intro x hx
    rw [hflat 0 (by omega) x (by omega)]
  · intro y1 hy1 hw
    rw [hflat y1 (by omega) 0 (by omega), hflat y1 (by omega) 1 (by omega)]

theorem track_succ (detectEdge : Mat → Mat) (img : Mat) (i : Nat) :
    track detectEdge img (i + 1) = trackStep detectEdge (track detectEdge img i) := by
  unfold track
  rw [List.range_succ, List.foldl_append]
  rfl

/-- When every energy map of the tracking loop is flat, each iteration
removes the current leftmost column: after `i` iterations the rows of `idx`
hold the original columns `i, ..., W - 1`. -/
theorem track_flat_rows (detectEdge : Mat → Mat) (hest : IsEstimator detectEdge) (img : Mat)
    (W H k : Nat) (hk : k ≤ W) (hwf : img.WF) (hcols : img.cols = W) (hrows : img.rows = H)
    (hflat : ∀ i, i < k → IsFlat (detectEdge (track detectEdge img i).1))
    (i : Nat) (hi : i ≤ k) (y : Nat) (hy : y < H) :
    (track detectEdge img i).2.1.pixelRow y =
      (List.range' i (W - i)).map (fun (x : Nat) => [(x : Int), (y : Int)]) := by
  induction i with
  | zero =>
    have ht := tracked_init img W H hwf hcols hrows
    show (indexImage img.cols img.rows).pixelRow y = _
    rw [hcols, hrows, indexImage_pixelRow W H y hy, coordRow, List.range_eq_range']
    rfl
  | succ i ih =>
    have ht := track_tracked detectEdge hest img W H i (by omega) hwf hcols hrows
    obtain ⟨⟨a1, a2, a3, _⟩, ⟨_, b2, b3, _⟩, _⟩ := ht
    have hE : IsEnergy (detectEdge (track detectEdge img i).1) (W - i) H := by
      have := hest _ a1 (by omega)
      rwa [a2, a3] at this
    have hz := flat_seam_zero hE (by omega) (by omega) (hflat i (by omega))
      (track detectEdge img i).2.2 y hy
    rw [track_succ]
    simp only [trackStep]
    rw [carveSeam_pixelRow _ _ y (by omega) (by rw [hz]) (by rw [hz, b3]; omega), hz,
      ih (by omega)]
    obtain ⟨n, hn⟩ : ∃ n, W - i = n + 1 := ⟨W - i - 1, by omega⟩
    rw [hn, show W - (i + 1) = n by omega, List.range'_succ]
    rfl

theorem pixel_mem_pixelRow (m : Mat) (y x : Nat) (hx : x < m.cols) :
    m.pixel y x ∈ m.pixelRow y := by
  unfold Mat.pixelRow
  exact List.mem_map.mpr ⟨x, List.mem_range.mpr hx, rfl⟩

theorem tracked_uniform {img : Mat} {W H i : Nat} {st : Mat × Mat × List Int}
    (h : Tracked img W H i st) (hcols : img.cols = W) (hrows : img.rows = H) (p : List Int)
    (hu : Uniform img p) : Uniform st.1 p := by
  intro y hy x hx
  have a2 := h.1.2.1
  have a3 := h.1.2.2.1
  have b3 := h.2.1.2.2.1
  rw [tracked_pixel h y x (by omega) (by omega)]
  have hmem := (h.2.2 y (by omega)).1.subset (pixel_mem_pixelRow st.2.1 y x (by omega))
  simp only [coordRow, List.mem_map, List.mem_range] at hmem
  obtain ⟨x1, hx1, he⟩ := hmem
  rw [← he, lookup_coord]
  exact hu y (by omega) x1 (by omega)

theorem flatEnergy_isFlat (m : Mat) : IsFlat (flatEnergy m) := by
  intro y _ x _
  rw [flatEnergy, Mat.get_alloc, Mat.get_alloc]

/-- C12. Lowest-column tie-break on flat energy: on an energy map whose
entries are all equal `computeSeam` returns `seam[y] = 0` in every row; on a
uniform image, with an estimator that returns flat maps on uniform images,
every tracking iteration removes the current leftmost column, so that after
`k < W` iterations the rows of `idx` hold the columns `k, ..., W - 1` and the
mask flags exactly the original columns `0, ..., k - 1` of every row. -/
theorem flat_energy_leftmost :
    (∀ (e : Mat) (W H : Nat) (seam0 : List Int), 1 ≤ W → 1 ≤ H → IsEnergy e W H → IsFlat e →
      ∀ y, y < H → (computeSeam e seam0).getD y 0 = 0) ∧
    (∀ (detectEdge : Mat → Mat) (img : Mat) (W H k : Nat) (p : List Int),
      IsEstimator detectEdge → (∀ m, Uniform m p → IsFlat (detectEdge m)) →
      img.WF → img.cols = W → img.rows = H → Uniform img p → k < W →
      ∀ y, y < H →
        (track detectEdge img k).2.1.pixelRow y =
          (List.range' k (W - k)).map (fun (x : Nat) => [(x : Int), (y : Int)]) ∧
        ∀ x, x < W →
          ((removableMask img (track detectEdge img k).2.1).get y x = 1 ↔ x < k) ∧
          ((removableMask img (track detectEdge img k).2.1).get y x = 0 ↔ k ≤ x)) := by
  constructor
  · intro e W H seam0 hW hH hE hflat y hy
    exact flat_seam_zero hE hW hH hflat seam0 y hy
  · intro detectEdge img W H k p hest hflat hwf hcols hrows hu hk y hy
    have hfl : ∀ i, i < k → IsFlat (detectEdge (track detectEdge img i).1) := by
      intro i hi
      apply hflat
      exact tracked_uniform (track_tracked detectEdge hest img W H i (by omega) hwf hcols hrows)
        hcols hrows p hu
    have hrow := track_flat_rows detectEdge hest img W H k (by omega) hwf hcols hrows hfl k
      (le_refl k) y hy
    refine ⟨hrow, ?_⟩
    intro x hx
    have ht := track_tracked detectEdge hest img W H k (by omega) hwf hcols hrows
    obtain ⟨m1, m0⟩ := mask_get_of_tracked ht hcols hrows y x hy hx
    rw [tracked_mem_row ht y x hy, hrow] at m1 m0
    have hmem : [(x : Int), (y : Int)] ∈
        (List.range' k (W - k)).map (fun (x : Nat) => [(x : Int), (y : Int)]) ↔ k ≤ x := by
      simp only [List.mem_map, List.mem_range'_1, List.cons.injEq, Nat.cast_inj, and_true]
      constructor
      · rintro ⟨a, ⟨h1, _⟩, rfl⟩
        exact h1
      · intro h
        exact ⟨x, ⟨h, by omega⟩, rfl⟩
    rw [hmem] at m1 m0
    exact ⟨by rw [m1]; omega, m0⟩

/-- An instance of C12: the flat map `flatMap5`, and two tracking iterations
on `uniformImage` with the zero estimator. -/
theorem flat_energy_leftmost_witness :
    (IsEnergy flatMap5 2 2 ∧ IsFlat flatMap5 ∧
      ∀ y, y < 2 → (computeSeam flatMap5 []).getD y 0 = 0) ∧
    (Uniform uniformImage [7, 7, 7] ∧
      (track flatEnergy uniformImage 2).2.1.pixelRow 0 =
        (List.range' 2 (3 - 2)).map (fun (x : Nat) => [(x : Int), ((0 : Nat) : Int)])) :=
  ⟨⟨by decide, by decide,
    flat_energy_leftmost.1 flatMap5 2 2 [] (by decide) (by decide) (by decide) (by decide)⟩,
   by decide,
   (flat_energy_leftmost.2 flatEnergy uniformImage 3 3 2 [7, 7, 7] flatEnergy_isEstimator
      (fun m _ => flatEnergy_isFlat m) (by decide) rfl rfl (by decide) (by decide) 0
      (by decide)).1⟩

/-! ## Uniform images -/

theorem dupRow_mem (img seam : Mat) (y n : Nat) (q : List Int)
    (hq : q ∈ dupRow img seam y n) : ∃ x, x < n ∧ q = img.pixel y x := by
  unfold dupRow at hq
  rw [List.mem_flatMap] at hq
  obtain ⟨x, hx, hmem⟩ := hq
  refine ⟨x, List.mem_range.mp hx, ?_⟩
  split at hmem
  · simp only [List.mem_cons, List.mem_singleton, List.not_mem_nil, or_false, or_self] at hmem
    exact hmem
  · simpa using hmem

/-- C11. Uniform enlarge: on a uniform three-channel image of width `W` and
height `H`, for every `k < W`, the whole enlarge run yields a `(W + k)` x `H`
image all of whose pixels equal the pixel of the source. -/
theorem uniform_enlarge (detectEdge : Mat → Mat) (img : Mat) (W H k : Nat) (p : List Int)
    (hest : IsEstimator detectEdge) (hwf : img.WF) (hcols : img.cols = W) (hrows : img.rows = H)
    (hch : img.chans = 3) (hu : Uniform img p) (hk : k < W) :
    (enlargeRun detectEdge img k).cols = W + k ∧ (enlargeRun detectEdge img k).rows = H ∧
    ∀ y, y < H → ∀ x, x < W + k → (enlargeRun detectEdge img k).pixel y x = p := by
  obtain ⟨_, h2, h3, _⟩ :=
    enlarge_shape img (removableMask img (track detectEdge img k).2.1) k
  refine ⟨by rw [← hcols]; exact h3, by rw [← hrows]; exact h2, ?_⟩
  intro y hy x hx
  have hmem := pixel_mem_pixelRow (enlargeRun detectEdge img k) y x
    (by rw [show (enlargeRun detectEdge img k).cols = img.cols + k from h3]; omega)
  rw [enlargeRun_pixelRow detectEdge img W H k hest hwf hcols hrows hch hk y hy] at hmem
  obtain ⟨x1, hx1, he⟩ := dupRow_mem _ _ _ _ _ hmem
  rw [he]
  exact hu y (by omega) x1 (by omega)

/-- An instance of C11: `uniformImage` (3 x 3) enlarged by 2 columns is a
5 x 3 image whose pixels are all `[7, 7, 7]`. -/
theorem uniform_enlarge_witness :
    IsEstimator flatEnergy ∧ uniformImage.WF ∧ Uniform uniformImage [7, 7, 7] ∧
    ((enlargeRun flatEnergy uniformImage 2).cols = 3 + 2 ∧
      (enlargeRun flatEnergy uniformImage 2).rows = 3 ∧
      ∀ y, y < 3 → ∀ x, x < 3 + 2 → (enlargeRun flatEnergy uniformImage 2).pixel y x = [7, 7, 7]) :=
  ⟨flatEnergy_isEstimator, by decide, by decide,
   uniform_enlarge flatEnergy uniformImage 3 3 2 [7, 7, 7] flatEnergy_isEstimator (by decide)
    rfl rfl rfl (by decide) (by decide)⟩

/-! ## The stripe scenario -/

/-- Two nested loops that assign `f y x` to every cell of a fresh
single-channel matrix. -/
theorem fill_spec (f : Nat → Nat → Int) (height width : Nat) :
    ((List.range height).foldl
      (fun (E : Mat) (y : Nat) =>
        (List.range width).foldl (fun (E : Mat) (x : Nat) => E.set y x (f y x)) E)
      (Mat.alloc height width 1 0)).WF ∧
    ((List.range height).foldl
      (fun (E : Mat) (y : Nat) =>
        (List.range width).foldl (fun (E : Mat) (x : Nat) => E.set y x (f y x)) E)
      (Mat.alloc height width 1 0)).rows = height ∧
    ((List.range height).foldl
      (fun (E : Mat) (y : Nat) =>
        (List.range width).foldl (fun (E : Mat) (x : Nat) => E.set y x (f y x)) E)
      (Mat.alloc height width 1 0)).cols = width ∧
    ((List.range height).foldl
      (fun (E : Mat) (y : Nat) =>
        (List.range width).foldl (fun (E : Mat) (x : Nat) => E.set y x (f y x)) E)
      (Mat.alloc height width 1 0)).chans = 1 ∧
    ∀ y x, y < height → x < width →
      ((List.range height).foldl
        (fun (E : Mat) (y : Nat) =>
          (List.range width).foldl (fun (E : Mat) (x : Nat) => E.set y x (f y x)) E)
        (Mat.alloc height width 1 0)).get y x = f y x := by
  apply foldl_range_inv
    (fun m (t : Mat) => t.WF ∧ t.rows = height ∧ t.cols = width ∧ t.chans = 1 ∧
      ∀ y x, y < m → x < width → t.get y x = f y x)
  · exact ⟨Mat.alloc_WF _ _ _ _, rfl, rfl, rfl, fun _ _ h => absurd h (Nat.not_lt_zero _)⟩
  · intro m t hm ⟨h1, h2, h3, h4, h5⟩
    have row := foldl_range_inv
      (fun n (u : Mat) => u.WF ∧ u.rows = height ∧ u.cols = width ∧ u.chans = 1 ∧
        (∀ y x, y < m → x < width → u.get y x = f y x) ∧
        ∀ x, x < n → u.get m x = f m x)
      (fun (E : Mat) (x : Nat) => E.set m x (f m x))
      width t ⟨h1, h2, h3, h4, h5, fun _ h => absurd h (Nat.not_lt_zero _)⟩
      (by
        intro n u hn ⟨u1, u2, u3, u4, u5, u6⟩
        refine ⟨Mat.set_WF u1 _ _ _, u2, u3, u4, ?_, ?_⟩
        · intro y x hy hx
          rw [Mat.get_set_ne _ _ (Or.inl (by omega))]
          exact u5 y x hy hx
        · intro x hx
          by_cases hxn : x = n
          · subst hxn
            exact Mat.get_set_same u1 _ (by omega) (by rw [u3, u4]; omega)
          · rw [Mat.get_set_ne _ _ (Or.inr hxn)]
            exact u6 x (by omega))
    obtain ⟨r1, r2, r3, r4, r5, r6⟩ := row
    refine ⟨r1, r2, r3, r4, ?_⟩
    intro y x hy hx
    by_cases he : y = m
    · subst he; exact r6 x hx
    · exact r5 y x (by omega) hx

theorem mem_data_get {m : Mat} (hwf : m.WF) (P : Int → Prop)
    (h : ∀ y x, y < m.rows → x < m.cols * m.chans → P (m.get y x)) :
    ∀ r ∈ m.data, ∀ v ∈ r, P v := by
  intro r hr v hv
  obtain ⟨y, hy, rfl⟩ := List.getElem_of_mem hr
  obtain ⟨x, hx, rfl⟩ := List.getElem_of_mem hv
  have hlen := hwf.2 _ hr
  have := h y x (by rw [← hwf.1]; exact hy) (by rw [← hlen]; exact hx)
  unfold Mat.get at this
  rw [List.getD_eq_getElem _ _ hy, List.getD_eq_getElem _ _ hx] at this
  exact this

theorem saturate_bounds (v : Int) : 0 ≤ saturate v ∧ saturate v ≤ 255 := by
  unfold saturate
  split
  · omega
  · split <;> omega

theorem detectEdge_get (cvtColor : Mat → Mat) (img : Mat) (y x : Nat) (hy : y < img.rows)
    (hx : x < img.cols) :
    (detectEdge cvtColor img).get y x =
      saturate (roundSqrt
        ((sobelX (cvtColor img)).get y x * (sobelX (cvtColor img)).get y x +
          (sobelY (cvtColor img)).get y x * (sobelY (cvtColor img)).get y x).toNat) :=
  (fill_spec (fun y x => saturate (roundSqrt
    ((sobelX (cvtColor img)).get y x * (sobelX (cvtColor img)).get y x +
      (sobelY (cvtColor img)).get y x * (sobelY (cvtColor img)).get y x).toNat))
    img.rows img.cols).2.2.2.2 y x hy hx

/-- The estimator `detectEdge` returns an 8-bit energy map of the size of the
image, whatever the colour conversion. -/
theorem detectEdge_shape (cvtColor : Mat → Mat) (img : Mat) :
    (detectEdge cvtColor img).WF ∧ (detectEdge cvtColor img).rows = img.rows ∧
    (detectEdge cvtColor img).cols = img.cols ∧ (detectEdge cvtColor img).chans = 1 :=
  ⟨(fill_spec _ img.rows img.cols).1, (fill_spec _ img.rows img.cols).2.1,
    (fill_spec _ img.rows img.cols).2.2.1, (fill_spec _ img.rows img.cols).2.2.2.1⟩

theorem detectEdge_isEnergy (cvtColor : Mat → Mat) (img : Mat) :
    IsEnergy (detectEdge cvtColor img) img.cols img.rows := by
  obtain ⟨h1, h2, h3, h4⟩ := detectEdge_shape cvtColor img
  refine ⟨h1, h2, h3, h4, ?_⟩
  apply mem_data_get h1 (fun v => 0 ≤ v ∧ v ≤ 255)
  intro y x hy hx
  rw [detectEdge_get cvtColor img y x (by omega) (by rw [h3, h4] at hx; omega)]
  exact saturate_bounds _

theorem stripe_sobelX (b s : Int) (y : Nat) (hy : y < 3) : (sobelX (stripe b s)).get y 0 = 0 := by
  interval_cases y <;>
  simp [sobelX, stripe, Mat.get, sampleAt, clampIndex, saturate, List.range_succ]

theorem stripe_sobelY (b s : Int) (y : Nat) (hy : y < 3) : (sobelY (stripe b s)).get y 0 = 0 := by
  interval_cases y <;>
  simp [sobelY, stripe, Mat.get, sampleAt, clampIndex, saturate, List.range_succ]

/-- C13. Stripe scenario: for an image 4 columns wide and 3 rows high whose
grey values are `s` in column 2 and `b < s` in the columns 0, 1 and 3, the
seam that `computeSeam` returns on the energy map of `detectEdge` never passes
through column 2; it is column 0 in every row. -/
theorem stripe_seam (cvtColor : Mat → Mat) (img : Mat) (b s : Int) (seam0 : List Int)
    (hbs : b < s) (hcols : img.cols = 4) (hrows : img.rows = 3)
    (hgray : cvtColor img = stripe b s) :
    ∀ y, y < 3 →
      (computeSeam (detectEdge cvtColor img) seam0).getD y 0 ≠ 2 ∧
      (computeSeam (detectEdge cvtColor img) seam0).getD y 0 = 0 := by
  have _ := hbs
  intro y hy
  have hE := detectEdge_isEnergy cvtColor img
  rw [hcols, hrows] at hE
  have hzero : ∀ y, y < 3 → (detectEdge cvtColor img).get y 0 = 0 := by
    intro y hy
    rw [detectEdge_get cvtColor img y 0 (by omega) (by omega), hgray, stripe_sobelX b s y hy,
      stripe_sobelY b s y hy]
    decide
  have hs := seam_first_column hE (by decide) (by decide)
    (fun x _ => by rw [hzero 0 (by decide)]; exact (hE.get_bounds 0 x).1)
    (fun y1 hy1 _ => by rw [hzero y1 (by omega)]; exact (hE.get_bounds y1 1).1)
    seam0 y hy
  rw [hs]
  exact ⟨by decide, rfl⟩

/-- An instance of C13: background `10`, stripe `200`, read as a grey image. -/
theorem stripe_seam_witness :
    (10 : Int) < 200 ∧ id (stripe 10 200) = stripe 10 200 ∧
    ∀ y, y < 3 →
      (computeSeam (detectEdge id (stripe 10 200)) []).getD y 0 ≠ 2 ∧
      (computeSeam (detectEdge id (stripe 10 200)) []).getD y 0 = 0 :=
  ⟨by decide, rfl, stripe_seam id (stripe 10 200) 10 200 [] (by decide) rfl rfl rfl⟩

theorem detectEdge_isEstimator (cvtColor : Mat → Mat) : IsEstimator (detectEdge cvtColor) :=
  fun m _ _ => detectEdge_isEnergy cvtColor m

/-! ## The function `main` -/

/-- C14, evaluated in shrink mode on `twoPixels` (width 2) with `npix = 2`:
`main` does not fail; it enters the loop and carves two seams, leaving a
matrix without columns. -/
theorem main_no_npix_check :
    twoPixels.cols ≤ 2 ∧
    main flatEnergy 2 1 2 twoPixels ≠ Outcome.failed (-1) ∧
    main flatEnergy 2 1 2 twoPixels = Outcome.processed (shrink flatEnergy twoPixels 2) ∧
    shrink flatEnergy twoPixels 2 = carveSeam (carveSeam twoPixels [0]) [0] ∧
    (shrink flatEnergy twoPixels 2).cols = 0 := by
  decide

/-- C14 as amended: on an image of zero width or zero height `main` returns
`-1` before any energy, seam or carving step, whatever the estimator, the mode
and `npix`, and hands no matrix on. -/
theorem main_invalid_dimension (detectEdge : Mat → Mat) (argc : Nat) (mode : Int) (npix : Nat)
    (img : Mat) (h : img.rows = 0 ∨ img.cols = 0) :
    main detectEdge argc mode npix img = Outcome.failed (-1) ∧
    ∀ out : Mat, main detectEdge argc mode npix img ≠ Outcome.processed out := by
  have hf : main detectEdge argc mode npix img = Outcome.failed (-1) := by
    unfold main
    split
    · rfl
    · rw [if_pos (show img.empty from h)]
  refine ⟨hf, ?_⟩
  intro out hout
  rw [hf] at hout
  exact Outcome.noConfusion hout

/-- An instance of C14 as amended: `emptyImage` is refused in shrink mode. -/
theorem main_invalid_dimension_witness :
    (emptyImage.rows = 0 ∨ emptyImage.cols = 0) ∧
    main flatEnergy 2 1 1 emptyImage = Outcome.failed (-1) :=
  ⟨by decide,
   (main_invalid_dimension flatEnergy 2 1 1 emptyImage (by decide)).1⟩

/-! ## The run with `npix = 0` -/

theorem Mat.ext_get {a b : Mat} (ha : a.WF) (hb : b.WF) (hr : a.rows = b.rows)
    (hc : a.cols = b.cols) (hch : a.chans = b.chans)
    (h : ∀ y j, y < a.rows → j < a.cols * a.chans → a.get y j = b.get y j) : a = b := by
  obtain ⟨ar, ac, ach, ad⟩ := a
  obtain ⟨br, bc, bch, bd⟩ := b
  simp only at hr hc hch
  subst hr hc hch
  obtain ⟨ha1, ha2⟩ := ha
  obtain ⟨hb1, hb2⟩ := hb
  simp only at ha1 ha2 hb1 hb2 h
  have hd : ad = bd := by
    apply List.ext_getElem (by rw [ha1, hb1])
    intro y h1 h2
    have hl1 := ha2 _ (List.getElem_mem h1)
    have hl2 := hb2 _ (List.getElem_mem h2)
    apply List.ext_getElem (by rw [hl1, hl2])
    intro j g1 g2
    have := h y j (by rw [← ha1]; exact h1) (by rw [← hl1]; exact g1)
    simp only [Mat.get] at this
    rw [List.getD_eq_getElem _ _ h1, List.getD_eq_getElem _ _ g1,
      List.getD_eq_getElem _ _ h2, List.getD_eq_getElem _ _ g2] at this
    exact this
  rw [hd]

theorem dupRow_no_flags (img seam : Mat) (y n : Nat) (h : ∀ x, x < n → seam.get y x ≠ 1) :
    dupRow img seam y n = (List.range n).map (img.pixel y) := by
  induction n with
  | zero => rfl
  | succ n ih =>
    rw [dupRow_succ, List.range_succ, List.map_append, ih (fun x hx => h x (by omega)),
      if_neg (h n (by omega))]
    rfl

/-- The mask built from the coordinate-index image as initialised has no
flag. -/
theorem mask_init_zero (img : Mat) (y x : Nat) (hy : y < img.rows) (hx : x < img.cols) :
    (removableMask img (indexImage img.cols img.rows)).get y x = 0 := by
  obtain ⟨_, i2, i3, _, i5⟩ := indexImage_spec img.cols img.rows
  obtain ⟨p0, _⟩ := (removableMask_spec img (indexImage img.cols img.rows)).2.2.2.2 y x hy hx
  apply p0
  exact ⟨y, x, Or.inl (by rw [i2]; exact hy), by rw [i3]; exact hx, (i5 y x hy hx).1,
    (i5 y x hy hx).2⟩

theorem track_zero (detectEdge : Mat → Mat) (img : Mat) :
    track detectEdge img 0 = (img, indexImage img.cols img.rows, []) := rfl

theorem enlargeRun_zero (detectEdge : Mat → Mat) (img : Mat) (hwf : img.WF)
    (hch : img.chans = 3) : enlargeRun detectEdge img 0 = img := by
  have hmask : ∀ y, y < img.rows →
      flagCount (removableMask img (indexImage img.cols img.rows)) y img.cols = 0 := by
    intro y hy
    unfold flagCount
    rw [List.countP_eq_zero]
    intro x hx
    rw [decide_eq_true_eq, mask_init_zero img y x hy (List.mem_range.mp hx)]
    decide
  obtain ⟨s1, s2, s3, s4⟩ :=
    enlarge_shape img (removableMask img (indexImage img.cols img.rows)) 0
  show enlarge img (removableMask img (indexImage img.cols img.rows)) 0 = img
  apply Mat.ext_get s1 hwf s2 (by rw [s3]; rfl) (by rw [s4, hch])
  intro y j hy hj
  rw [s2] at hy
  rw [s3, s4] at hj
  have hrow := enlarge_pixelRow img _ 0 hch hmask y hy
  rw [dupRow_no_flags _ _ _ _ (fun x hx => by
    rw [mask_init_zero img y x hy hx]; decide)] at hrow
  have hx : j / 3 < img.cols := by omega
  have hp : (enlarge img (removableMask img (indexImage img.cols img.rows)) 0).pixel y (j / 3) =
      img.pixel y (j / 3) := by
    have h1 := pixelRow_getElem? (enlarge img (removableMask img
      (indexImage img.cols img.rows)) 0) y (j / 3) (by rw [s3]; omega)
    rw [hrow, List.getElem?_map, List.getElem?_range hx] at h1
    simpa using h1.symm
  have g1 := pixel_getD (enlarge img (removableMask img (indexImage img.cols img.rows)) 0)
    y (j / 3) (j % 3) (by rw [s4]; omega)
  have g2 := pixel_getD img y (j / 3) (j % 3) (by rw [hch]; omega)
  rw [s4] at g1
  rw [hch] at g2
  rw [show j = j / 3 * 3 + j % 3 by omega, ← g1, ← g2, hp]

/-- C20. Zero-pixel run: on a non-empty image `main` with `npix = 0` hands
back the input itself in shrink mode and, for a three-channel image, in
enlarge mode; in enlarge mode the mask built from the untouched
coordinate-index image has no flag, and `enlarge` assigns every pixel
`(y, x)` of the output, which equals the source pixel at the same column. -/
theorem zero_pixel_identity (detectEdge : Mat → Mat) (img : Mat) (W H argc : Nat) (mode : Int)
    (hargc : 2 ≤ argc) (hwf : img.WF) (hcols : img.cols = W) (hrows : img.rows = H)
    (hW : 1 ≤ W) (hH : 1 ≤ H) :
    main detectEdge argc 1 0 img = Outcome.processed img ∧
    (img.chans = 3 → mode ≠ 1 → main detectEdge argc mode 0 img = Outcome.processed img) ∧
    (∀ y x, y < H → x < W →
      (removableMask img (track detectEdge img 0).2.1).get y x = 0) ∧
    (img.chans = 3 → ∀ y x, y < H → x < W →
      (y, x) ∈ enlargeWrites img (removableMask img (track detectEdge img 0).2.1) 0 ∧
      (enlarge img (removableMask img (track detectEdge img 0).2.1) 0).pixel y x =
        img.pixel y x) := by
  subst hcols hrows
  have hne : ¬ img.empty := by unfold Mat.empty; omega
  refine ⟨?_, ?_, ?_, ?_⟩
  · unfold main
    rw [if_neg (by omega), if_neg hne, if_pos rfl]
    rfl
  · intro hch hmode
    unfold main
    rw [if_neg (by omega), if_neg hne, if_neg hmode, enlargeRun_zero detectEdge img hwf hch]
  · intro y x hy hx
    rw [track_zero]
    exact mask_init_zero img y x hy hx
  · intro hch y x hy hx
    rw [track_zero]
    constructor
    · apply enlargeWrites_cover img _ 0 _ y x hy (by omega)
      intro y1 hy1
      unfold flagCount
      rw [List.countP_eq_zero]
      intro x1 hx1
      rw [decide_eq_true_eq, mask_init_zero img y1 x1 hy1 (List.mem_range.mp hx1)]
      decide
    · have := enlargeRun_zero detectEdge img hwf hch
      rw [show enlargeRun detectEdge img 0 =
        enlarge img (removableMask img (indexImage img.cols img.rows)) 0 from rfl] at this
      rw [this]

/-- An instance of C20: `twoPixels` with `npix = 0` in shrink mode (`mode = 1`)
and in enlarge mode (`mode = 2`). -/
theorem zero_pixel_identity_witness :
    twoPixels.WF ∧ twoPixels.chans = 3 ∧
    main flatEnergy 2 1 0 twoPixels = Outcome.processed twoPixels ∧
    main flatEnergy 2 2 0 twoPixels = Outcome.processed twoPixels :=
  ⟨by decide, rfl,
   (zero_pixel_identity flatEnergy twoPixels 2 1 2 2 (by decide) (by decide) rfl rfl
      (by decide) (by decide)).1,
   (zero_pixel_identity flatEnergy twoPixels 2 1 2 2 (by decide) (by decide) rfl rfl
      (by decide) (by decide)).2.1 rfl (by decide)⟩

end SeamCarving
